import Mathlib

/-!
# Botan: verification development

Shallow embedding of `src/lib/psk_db/psk_db.cpp` (the encrypted PSK database),
of `Key_Length_Specification` in `src/lib/base/sym_algo.h` and of
`src/lib/filters/secqueue.cpp` (the byte queue).

* `std::string`, `std::vector<uint8_t>` and `secure_vector<uint8_t>` are byte
  sequences; a byte is a natural number.
* A C++ exception is an `Except.error`; a statement that mutates the backend
  returns the new backend state.
* The cryptographic primitives and the codec that `psk_db.cpp` calls
  (`nist_key_wrap_padded`, `nist_key_unwrap_padded`, HMAC, `base64_encode`,
  `base64_decode`) are defined outside the embedded sources, so the embedding is
  parameterised by them (`Primitives`).
* A `size_t` is a natural number; where a `size_t` result can exceed the range
  (`Key_Length_Specification::multiple`, `m_bytes_read`) it is reduced modulo
  `2 ^ 64`.
* The linked chain of nodes of a `SecureQueue` is a list; a loop whose number of
  iterations is not bounded by the structure of its data takes a bound on the
  iterations and returns `none` when the bound is used up.
-/

namespace Botan

/-- Contents of a `std::vector<uint8_t>` or `secure_vector<uint8_t>`. -/
abbrev Bytes := List Nat

/-- Contents of a `std::string` or `std::string_view`: its sequence of chars. -/
abbrev StdString := List Nat

/-- The chars of an (ASCII) string literal. -/
def str (s : String) : StdString := s.toList.map Char.toNat

/-- The two exception classes that `psk_db.cpp` throws or catches. -/
inductive Exception where
  | Invalid_Argument (msg : String)
  | Invalid_Authentication_Tag (msg : String)
  deriving DecidableEq, Repr

/-- The exception thrown by `get` when no record is found:
`Invalid_Argument("Named PSK not located")`, the spec's `NotFound`. -/
def NotFound : Exception := Exception.Invalid_Argument "Named PSK not located"

/-- Whether `catch(Invalid_Authentication_Tag&)` catches the exception (the
spec's `AuthenticationFailure`). -/
def Exception.isAuthenticationFailure : Exception → Bool
  | Exception.Invalid_Authentication_Tag _ => true
  | Exception.Invalid_Argument _ => false

/-- The operations `psk_db.cpp` calls that are defined outside the embedded
sources. A keyed cipher or MAC object is represented by its key:
`nist_key_wrap_padded key input` is `nist_key_wrap_padded(input, cipher)` for
an AES-256 object keyed with `key`, and `hmac key msg` is `process(msg)` on an
HMAC(SHA-256) object keyed with `key`. -/
structure Primitives where
  nist_key_wrap_padded : Bytes → Bytes → Bytes
  nist_key_unwrap_padded : Bytes → Bytes → Except Exception Bytes
  hmac : Bytes → Bytes → Bytes
  base64_encode : Bytes → StdString
  base64_decode : StdString → Except Exception Bytes

/-- Modelled from the spec: `as_span_of_bytes` (mem_utils.h) views the chars of
a string as bytes (the spec's `utf8_bytes(name)`); the bytes are unchanged. -/
def as_span_of_bytes (s : StdString) : Bytes := s

/-- Modelled from the spec: `bytes_to_string` (mem_utils.h) reads bytes as the
chars of a string; the bytes are unchanged. -/
def bytes_to_string (b : Bytes) : StdString := b

/-- `operator<` of `std::string`: lexicographic comparison of the chars. -/
def string_lt : StdString → StdString → Bool
  | _, [] => false
  | [], _ :: _ => true
  | a :: as, b :: bs => if a < b then true else if a = b then string_lt as bs else false

/-- `std::set<std::string>::insert` on the ascending list of elements. -/
def set_insert (x : StdString) : List StdString → List StdString
  | [] => [x]
  | y :: ys =>
    if string_lt x y then x :: y :: ys
    else if x = y then y :: ys
    else y :: set_insert x ys

/-- Modelled from the spec: the backend of section 6, a string-keyed map
(`std::map<std::string, std::string>`), kept as the list of its records. -/
abbrev Backend := List (StdString × StdString)

/-- Modelled from the spec: `kv_get(key)`, the stored value, or the empty
string when the key is absent. -/
def kv_get : Backend → StdString → StdString
  | [], _ => []
  | (k, v) :: rest, key => if k = key then v else kv_get rest key

/-- Modelled from the spec: `kv_set(key, value)` inserts the record or
overwrites the value of the existing one (records are kept in key order). -/
def kv_set : Backend → StdString → StdString → Backend
  | [], key, value => [(key, value)]
  | (k, v) :: rest, key, value =>
    if string_lt key k then (key, value) :: (k, v) :: rest
    else if key = k then (key, value) :: rest
    else (k, v) :: kv_set rest key value

/-- Modelled from the spec: `kv_del(key)` deletes the record of the key, if
there is one. -/
def kv_del (db : Backend) (key : StdString) : Backend :=
  db.filter (fun r => decide (r.1 ≠ key))

/-- Modelled from the spec: `kv_get_all()`, the set of all stored keys. -/
def kv_get_all (db : Backend) : List StdString :=
  (db.map Prod.fst).foldr set_insert []

/-- State of an `Encrypted_PSK_Database`: the key held by `m_cipher` and the
key held by `m_hmac`. -/
structure Encrypted_PSK_Database where
  m_cipher : Bytes
  m_hmac : Bytes
  deriving DecidableEq, Repr

namespace Encrypted_PSK_Database

/-- The constructor `Encrypted_PSK_Database(master_key)` (psk_db.cpp 27-34). -/
def new (P : Primitives) (master_key : Bytes) : Encrypted_PSK_Database :=
  -- m_hmac->set_key(master_key);
  let m_hmac := master_key
  -- m_cipher->set_key(m_hmac->process("wrap"));
  let m_cipher := P.hmac m_hmac (as_span_of_bytes (str "wrap"))
  -- m_hmac->set_key(m_hmac->process("hmac"));
  let m_hmac := P.hmac m_hmac (as_span_of_bytes (str "hmac"))
  { m_cipher := m_cipher, m_hmac := m_hmac }

/-- The body of the `try` block of `list_names` (psk_db.cpp 45-48): the name
recovered from one backend key, or the exception thrown. -/
def list_names_entry (P : Primitives) (self : Encrypted_PSK_Database) (enc_name : StdString) :
    Except Exception StdString := do
  let raw_name ← P.base64_decode enc_name
  let name_bits ← P.nist_key_unwrap_padded self.m_cipher raw_name
  pure (bytes_to_string name_bits)

/-- The `for` loop of `list_names` (psk_db.cpp 43-51) over the remaining
backend keys, with the names collected so far. -/
def list_names_loop (P : Primitives) (self : Encrypted_PSK_Database) :
    List StdString → List StdString → Except Exception (List StdString)
  | [], names => Except.ok names
  | enc_name :: rest, names =>
    match list_names_entry P self enc_name with
    | Except.ok pt_name => list_names_loop P self rest (set_insert pt_name names)
    | Except.error (Exception.Invalid_Authentication_Tag _) => list_names_loop P self rest names
    | Except.error e => Except.error e

/-- `Encrypted_PSK_Database::list_names` (psk_db.cpp 38-54). -/
def list_names (P : Primitives) (self : Encrypted_PSK_Database) (db : Backend) :
    Except Exception (List StdString) :=
  let encrypted_names := kv_get_all db
  list_names_loop P self encrypted_names []

/-- `Encrypted_PSK_Database::remove` (psk_db.cpp 56-60). -/
def remove (P : Primitives) (self : Encrypted_PSK_Database) (db : Backend) (name : StdString) :
    Backend :=
  let wrapped_name := P.nist_key_wrap_padded self.m_cipher (as_span_of_bytes name)
  kv_del db (P.base64_encode wrapped_name)

/-- `Encrypted_PSK_Database::get` (psk_db.cpp 62-77). -/
def get (P : Primitives) (self : Encrypted_PSK_Database) (db : Backend) (name : StdString) :
    Except Exception Bytes :=
  let wrapped_name := P.nist_key_wrap_padded self.m_cipher (as_span_of_bytes name)
  let val_base64 := kv_get db (P.base64_encode wrapped_name)
  if val_base64.isEmpty then
    Except.error (Exception.Invalid_Argument "Named PSK not located")
  else do
    let val ← P.base64_decode val_base64
    let wrap_cipher := P.hmac self.m_hmac wrapped_name
    P.nist_key_unwrap_padded wrap_cipher val

/-- `Encrypted_PSK_Database::set` (psk_db.cpp 79-92). -/
def set (P : Primitives) (self : Encrypted_PSK_Database) (db : Backend) (name : StdString)
    (val : Bytes) : Backend :=
  let wrapped_name := P.nist_key_wrap_padded self.m_cipher (as_span_of_bytes name)
  let wrap_cipher := P.hmac self.m_hmac wrapped_name
  let wrapped_key := P.nist_key_wrap_padded wrap_cipher val
  kv_set db (P.base64_encode wrapped_name) (P.base64_encode wrapped_key)

/-- The backend key of a name: `base64_encode(nist_key_wrap_padded(name))`. -/
def backend_key (P : Primitives) (self : Encrypted_PSK_Database) (name : StdString) : StdString :=
  P.base64_encode (P.nist_key_wrap_padded self.m_cipher (as_span_of_bytes name))

/-- The per-entry key of a name: the HMAC of its wrapped name. -/
def entry_key (P : Primitives) (self : Encrypted_PSK_Database) (name : StdString) : Bytes :=
  P.hmac self.m_hmac (P.nist_key_wrap_padded self.m_cipher (as_span_of_bytes name))

end Encrypted_PSK_Database

/-! ## Contracts of the external primitives -/

/-- Key unwrap inverts key wrap under the same key. -/
def UnwrapInvertsWrap (P : Primitives) : Prop :=
  ∀ key input, P.nist_key_unwrap_padded key (P.nist_key_wrap_padded key input) = Except.ok input

/-- Base64 decode inverts base64 encode. -/
def DecodeInvertsEncode (P : Primitives) : Prop :=
  ∀ b, P.base64_decode (P.base64_encode b) = Except.ok b

/-- The encoded output of a key wrap is never the empty string (a wrapped
value always carries its integrity check value). -/
def WrappedNonEmpty (P : Primitives) : Prop :=
  ∀ key input, P.base64_encode (P.nist_key_wrap_padded key input) ≠ []

/-- Unwrapping a wrapped value under a different key is rejected with an
authentication failure. -/
def WrongKeyRejected (P : Primitives) : Prop :=
  ∀ key key2 input, key ≠ key2 →
    ∃ msg, P.nist_key_unwrap_padded key2 (P.nist_key_wrap_padded key input) =
      Except.error (Exception.Invalid_Authentication_Tag msg)

/-- The codec and the key unwrap never throw the exception that `get` uses for
a missing record. -/
def RaisesNoNotFound (P : Primitives) : Prop :=
  (∀ s, P.base64_decode s ≠ Except.error NotFound) ∧
    ∀ key input, P.nist_key_unwrap_padded key input ≠ Except.error NotFound

/-- Bytes that are as long as a wrapped value but are not the wrap of any
value under the key are rejected by unwrap under that key with an
authentication failure. -/
def ForgeryRejected (P : Primitives) : Prop :=
  ∀ key input forged, forged.length = (P.nist_key_wrap_padded key input).length →
    (∀ input2, forged ≠ P.nist_key_wrap_padded key input2) →
    ∃ msg, P.nist_key_unwrap_padded key forged =
      Except.error (Exception.Invalid_Authentication_Tag msg)

/-- The number of positions at which two strings of the same length differ. -/
def count_differences : StdString → StdString → Nat
  | a :: as, b :: bs => (if a = b then 0 else 1) + count_differences as bs
  | _, _ => 0

/-- The string `t` differs from `s` in exactly one byte. -/
def differs_in_one_byte (s t : StdString) : Prop :=
  s.length = t.length ∧ count_differences s t = 1

instance (s t : StdString) : Decidable (differs_in_one_byte s t) := by
  unfold differs_in_one_byte
  infer_instance

/-- A small concrete instantiation of the primitives that meets the contracts
above: wrap and MAC frame the key in front of the input, unwrap checks the
frame, and the codec puts one mark char in front of the bytes. -/
def toy : Primitives where
  nist_key_wrap_padded key input := key.length :: (key ++ input)
  nist_key_unwrap_padded key input :=
    match input with
    | [] => Except.error (Exception.Invalid_Argument "Bad input size for NIST key unwrap")
    | n :: rest =>
      if n = key.length ∧ rest.take n = key then Except.ok (rest.drop n)
      else Except.error (Exception.Invalid_Authentication_Tag "NIST key unwrap failed")
  hmac key msg := key.length :: (key ++ msg)
  base64_encode b := 61 :: b
  base64_decode s :=
    match s with
    | 61 :: b => Except.ok b
    | _ => Except.error (Exception.Invalid_Argument "base64 decoding failed")

/-- The zero padding that HMAC applies to a key shorter than the block of its
hash function (64 bytes for SHA-256). -/
def hmac_pad_key (key : Bytes) : Bytes := key ++ List.replicate (64 - key.length) 0

/-- The toy primitives with a MAC that pads its key with zero bytes as HMAC
does, so that two keys that differ only in trailing zero bytes give the same
output. -/
def toy_padded : Primitives :=
  { toy with
    hmac := fun key msg => (hmac_pad_key key).length :: (hmac_pad_key key ++ msg) }

/-! ## Call sequences -/

/-- One mutating call on a store. -/
inductive Op where
  | set (name : StdString) (val : Bytes)
  | remove (name : StdString)
  deriving DecidableEq, Repr

/-- The backend state after one call. -/
def Op.apply (P : Primitives) (self : Encrypted_PSK_Database) (db : Backend) : Op → Backend
  | Op.set name val => self.set P db name val
  | Op.remove name => self.remove P db name

/-- The backend state after a sequence of calls, first call first. -/
def run (P : Primitives) (self : Encrypted_PSK_Database) (db : Backend) (ops : List Op) : Backend :=
  ops.foldl (Op.apply P self) db

/-- Whether the most recent call on `n`, given that `live` held before the
call, leaves `n` set. -/
def Op.live_after (n : StdString) (live : Bool) : Op → Bool
  | Op.set name _ => if name = n then true else live
  | Op.remove name => if name = n then false else live

/-- Whether the most recent call on `n` in the sequence is a `set`. -/
def last_op_is_set (ops : List Op) (n : StdString) : Bool :=
  ops.foldl (Op.live_after n) false

/-! ## The backend interface and the string wrappers -/

/-- The four pure virtual functions through which `Encrypted_PSK_Database`
reaches its backend, over a backend state `σ`. The two `const` ones return a
value only; the other two return the new backend state. -/
structure KV_Backend (σ : Type) where
  kv_get : σ → StdString → StdString
  kv_set : σ → StdString → StdString → σ
  kv_del : σ → StdString → σ
  kv_get_all : σ → List StdString

/-- A backend call that changes the backend. -/
inductive Mutation where
  | kv_set (key value : StdString)
  | kv_del (key : StdString)
  deriving DecidableEq, Repr

/-- The string-keyed map as an implementation of the backend interface. -/
def map_backend : KV_Backend Backend :=
  { kv_get := kv_get, kv_set := kv_set, kv_del := kv_del, kv_get_all := kv_get_all }

/-- The string-keyed map together with the log of the mutating calls made on
it, oldest first. -/
def logged_backend : KV_Backend (Backend × List Mutation) :=
  { kv_get := fun s key => kv_get s.1 key,
    kv_set := fun s key value => (kv_set s.1 key value, s.2 ++ [Mutation.kv_set key value]),
    kv_del := fun s key => (kv_del s.1 key, s.2 ++ [Mutation.kv_del key]),
    kv_get_all := fun s => kv_get_all s.1 }

namespace Encrypted_PSK_Database

/-- `Encrypted_PSK_Database::list_names` (psk_db.cpp 38-54) over any
implementation of the backend interface. -/
def list_names_on {σ : Type} (B : KV_Backend σ) (P : Primitives) (self : Encrypted_PSK_Database)
    (s : σ) : Except Exception (List StdString) :=
  let encrypted_names := B.kv_get_all s
  list_names_loop P self encrypted_names []

/-- `Encrypted_PSK_Database::remove` (psk_db.cpp 56-60) over any
implementation of the backend interface. -/
def remove_on {σ : Type} (B : KV_Backend σ) (P : Primitives) (self : Encrypted_PSK_Database)
    (s : σ) (name : StdString) : σ :=
  let wrapped_name := P.nist_key_wrap_padded self.m_cipher (as_span_of_bytes name)
  B.kv_del s (P.base64_encode wrapped_name)

/-- `Encrypted_PSK_Database::get` (psk_db.cpp 62-77) over any implementation
of the backend interface. -/
def get_on {σ : Type} (B : KV_Backend σ) (P : Primitives) (self : Encrypted_PSK_Database)
    (s : σ) (name : StdString) : Except Exception Bytes :=
  let wrapped_name := P.nist_key_wrap_padded self.m_cipher (as_span_of_bytes name)
  let val_base64 := B.kv_get s (P.base64_encode wrapped_name)
  if val_base64.isEmpty then
    Except.error (Exception.Invalid_Argument "Named PSK not located")
  else do
    let val ← P.base64_decode val_base64
    let wrap_cipher := P.hmac self.m_hmac wrapped_name
    P.nist_key_unwrap_padded wrap_cipher val

/-- `Encrypted_PSK_Database::set` (psk_db.cpp 79-92) over any implementation
of the backend interface. -/
def set_on {σ : Type} (B : KV_Backend σ) (P : Primitives) (self : Encrypted_PSK_Database)
    (s : σ) (name : StdString) (val : Bytes) : σ :=
  let wrapped_name := P.nist_key_wrap_padded self.m_cipher (as_span_of_bytes name)
  let wrap_cipher := P.hmac self.m_hmac wrapped_name
  let wrapped_key := P.nist_key_wrap_padded wrap_cipher val
  B.kv_set s (P.base64_encode wrapped_name) (P.base64_encode wrapped_key)

/-- `PSK_Database::get_str` (psk_db.cpp 18-20). -/
def get_str (P : Primitives) (self : Encrypted_PSK_Database) (db : Backend) (name : StdString) :
    Except Exception StdString := do
  let psk ← self.get P db name
  pure (bytes_to_string psk)

/-- `PSK_Database::set_str` (psk_db.cpp 22-25). -/
def set_str (P : Primitives) (self : Encrypted_PSK_Database) (db : Backend) (name : StdString)
    (psk : StdString) : Backend :=
  let pskb := as_span_of_bytes psk
  self.set P db name pskb

/-- Line 32 of the constructor, `m_cipher->set_key(m_hmac->process("wrap"))`,
as a step on the two member keys. -/
def derive_wrap_key (P : Primitives) (st : Encrypted_PSK_Database) : Encrypted_PSK_Database :=
  { st with m_cipher := P.hmac st.m_hmac (as_span_of_bytes (str "wrap")) }

/-- Line 33 of the constructor, `m_hmac->set_key(m_hmac->process("hmac"))`, as
a step on the two member keys: the argument is computed under the old key. -/
def derive_naming_key (P : Primitives) (st : Encrypted_PSK_Database) : Encrypted_PSK_Database :=
  { st with m_hmac := P.hmac st.m_hmac (as_span_of_bytes (str "hmac")) }

end Encrypted_PSK_Database

/-- The state of the logged backend after one call. -/
def Op.apply_logged (P : Primitives) (self : Encrypted_PSK_Database)
    (s : Backend × List Mutation) : Op → Backend × List Mutation
  | Op.set name val => self.set_on logged_backend P s name val
  | Op.remove name => self.remove_on logged_backend P s name

/-- The state of the logged backend after a sequence of calls. -/
def run_logged (P : Primitives) (self : Encrypted_PSK_Database) (s : Backend × List Mutation)
    (ops : List Op) : Backend × List Mutation :=
  ops.foldl (Op.apply_logged P self) s

/-! ## Key length specifications (`src/lib/base/sym_algo.h`) -/

/-- Arithmetic on `size_t` is modulo `2 ^ 64`. -/
def size_t_modulus : Nat := 2 ^ 64

/-- The private members of `Key_Length_Specification` (sym_algo.h 73), each a
`size_t`. -/
structure Key_Length_Specification where
  m_min_keylen : Nat
  m_max_keylen : Nat
  m_keylen_mod : Nat
  deriving DecidableEq, Repr

namespace Key_Length_Specification

/-- The constructor for fixed length keys, `Key_Length_Specification(keylen)`
(sym_algo.h 29). -/
def fixed_length (keylen : Nat) : Key_Length_Specification :=
  { m_min_keylen := keylen, m_max_keylen := keylen, m_keylen_mod := 1 }

/-- The constructor for variable length keys,
`Key_Length_Specification(min_k, max_k, k_mod)` (sym_algo.h 37-38). -/
def variable_length (min_k max_k k_mod : Nat) : Key_Length_Specification :=
  { m_min_keylen := min_k,
    m_max_keylen := if max_k > 0 then max_k else min_k,
    m_keylen_mod := k_mod }

/-- `valid_keylength(length)` (sym_algo.h 44-46). The operator `&&` evaluates
its right operand only when the left one is true; `length % m_keylen_mod` with
a zero `m_keylen_mod` is a division by zero, for which C++ defines no result
(`none`). -/
def valid_keylength (self : Key_Length_Specification) (length : Nat) : Option Bool :=
  if length ≥ self.m_min_keylen then
    if length ≤ self.m_max_keylen then
      if self.m_keylen_mod = 0 then none
      else some (decide (length % self.m_keylen_mod = 0))
    else some false
  else some false

/-- `minimum_keylength()` (sym_algo.h 51). -/
def minimum_keylength (self : Key_Length_Specification) : Nat := self.m_min_keylen

/-- `maximum_keylength()` (sym_algo.h 56). -/
def maximum_keylength (self : Key_Length_Specification) : Nat := self.m_max_keylen

/-- `keylength_multiple()` (sym_algo.h 61). -/
def keylength_multiple (self : Key_Length_Specification) : Nat := self.m_keylen_mod

/-- `multiple(n)` (sym_algo.h 68-70): the three products are `size_t`
products, passed to the constructor for variable length keys. -/
def multiple (self : Key_Length_Specification) (n : Nat) : Key_Length_Specification :=
  variable_length ((n * self.m_min_keylen) % size_t_modulus)
    ((n * self.m_max_keylen) % size_t_modulus) ((n * self.m_keylen_mod) % size_t_modulus)

end Key_Length_Specification

/-! ## SecureQueue (`src/lib/filters/secqueue.cpp`) -/

/-- `copy_mem(out + pos, in, n)` with `n` the length of `input`: the bytes of
`out` from position `pos` on are overwritten by `input`. -/
def copy_mem (out : List Nat) (pos : Nat) (input : List Nat) : List Nat :=
  out.take pos ++ input ++ out.drop (pos + input.length)

/-- The members of a `SecureQueueNode` (secqueue.cpp 61-63) without the link
`m_next`, which is the position of the node in the chain of its queue. The
differences `m_end - m_start` and `m_buffer.size() - m_end` are taken on
natural numbers: they do not wrap on a node reached from a new node, where
`m_start <= m_end <= m_buffer.size()`. -/
structure SecureQueueNode where
  m_buffer : List Nat
  m_start : Nat
  m_end : Nat
  deriving DecidableEq, Repr

namespace SecureQueueNode

/-- The constructor `SecureQueueNode()` (secqueue.cpp 21); the constant
`DefaultBufferSize` is declared outside the embedded sources and is a
parameter. -/
def new (DefaultBufferSize : Nat) : SecureQueueNode :=
  { m_buffer := List.replicate DefaultBufferSize 0, m_start := 0, m_end := 0 }

/-- `SecureQueueNode::write` (secqueue.cpp 33-38): the value returned and the
node after the call. -/
def write (self : SecureQueueNode) (input : List Nat) : Nat × SecureQueueNode :=
  let copied := min input.length (self.m_buffer.length - self.m_end)
  (copied,
    { self with
      m_buffer := copy_mem self.m_buffer self.m_end (input.take copied),
      m_end := self.m_end + copied })

/-- `SecureQueueNode::read` (secqueue.cpp 40-45): the value returned with the
bytes copied to `output`, and the node after the call. -/
def read (self : SecureQueueNode) (length : Nat) : (Nat × List Nat) × SecureQueueNode :=
  let copied := min length (self.m_end - self.m_start)
  ((copied, (self.m_buffer.drop self.m_start).take copied),
    { self with m_start := self.m_start + copied })

/-- `SecureQueueNode::peek` (secqueue.cpp 47-55): the value returned with the
bytes copied to `output`, and the node after the call. -/
def peek (self : SecureQueueNode) (length offset : Nat) :
    (Nat × List Nat) × SecureQueueNode :=
  let left := self.m_end - self.m_start
  if offset ≥ left then ((0, []), self)
  else
    let copied := min length (left - offset)
    ((copied, (self.m_buffer.drop (self.m_start + offset)).take copied), self)

/-- `SecureQueueNode::size` (secqueue.cpp 57). -/
def size (self : SecureQueueNode) : Nat := self.m_end - self.m_start

/-- The bytes held by a node: those of its buffer from `m_start` up to
`m_end`. -/
def contents (self : SecureQueueNode) : List Nat :=
  (self.m_buffer.drop self.m_start).take (self.m_end - self.m_start)

/-- The bounds that hold on every node reached from a new node. -/
def WF (self : SecureQueueNode) : Prop :=
  self.m_start ≤ self.m_end ∧ self.m_end ≤ self.m_buffer.length

end SecureQueueNode

/-- State of a `SecureQueue`: the chain of nodes from `m_head` along `m_next`
(the empty chain for `nullptr`; `m_tail` is the last node of a non-empty
chain), and the `size_t` counter `m_bytes_read`. -/
structure SecureQueue where
  m_head : List SecureQueueNode
  m_bytes_read : Nat
  deriving DecidableEq, Repr

namespace SecureQueue

/-- The constructor `SecureQueue()` (secqueue.cpp 69-72). -/
def new (DefaultBufferSize : Nat) : SecureQueue :=
  { m_head := [SecureQueueNode.new DefaultBufferSize], m_bytes_read := 0 }

/-- The `while` loop of `SecureQueue::write` (secqueue.cpp 127-135), on the
nodes in front of `m_tail`, the node `m_tail` and the remaining input. The
first argument bounds the number of iterations; `none` when it is used up. -/
def write_loop (DefaultBufferSize : Nat) :
    Nat → List SecureQueueNode → SecureQueueNode → List Nat → Option (List SecureQueueNode)
  | _, front, tail, [] => some (front ++ [tail])
  | 0, _, _, _ :: _ => none
  | fuel + 1, front, tail, b :: bs =>
    let r := tail.write (b :: bs)
    let input := (b :: bs).drop r.1
    if input.length > 0 then
      write_loop DefaultBufferSize fuel (front ++ [r.2]) (SecureQueueNode.new DefaultBufferSize)
        input
    else write_loop DefaultBufferSize fuel front r.2 input

/-- `SecureQueue::write` (secqueue.cpp 123-136). -/
def write (DefaultBufferSize : Nat) (self : SecureQueue) (input : List Nat) :
    Option SecureQueue :=
  let chain :=
    if self.m_head.isEmpty then [SecureQueueNode.new DefaultBufferSize] else self.m_head
  match write_loop DefaultBufferSize (input.length + 1) chain.dropLast
      (chain.getLastD (SecureQueueNode.new DefaultBufferSize)) input with
  | none => none
  | some chain2 => some { self with m_head := chain2 }

/-- The `while` loop of `SecureQueue::read` (secqueue.cpp 143-153), on the
chain from `m_head` and the remaining length: the bytes got with their number,
and the chain after the loop. The first argument bounds the number of
iterations; `none` when it is used up. -/
def read_loop :
    Nat → List SecureQueueNode → Nat → Option ((Nat × List Nat) × List SecureQueueNode)
  | _, [], _ => some ((0, []), [])
  | 0, head :: rest, length =>
    if length > 0 then none else some ((0, []), head :: rest)
  | fuel + 1, head :: rest, length =>
    if length > 0 then
      let r := head.read length
      let chain := if r.2.size = 0 then rest else r.2 :: rest
      match read_loop fuel chain (length - r.1.1) with
      | none => none
      | some r2 => some ((r.1.1 + r2.1.1, r.1.2 ++ r2.1.2), r2.2)
    else some ((0, []), head :: rest)

/-- `SecureQueue::read` (secqueue.cpp 141-156): the value returned with the
bytes copied to `output`, and the queue after the call. -/
def read (self : SecureQueue) (length : Nat) : Option ((Nat × List Nat) × SecureQueue) :=
  match read_loop self.m_head.length self.m_head length with
  | none => none
  | some r =>
    some (r.1, { m_head := r.2, m_bytes_read := (self.m_bytes_read + r.1.1) % size_t_modulus })

/-- The first `while` loop of `SecureQueue::peek` (secqueue.cpp 164-171): the
nodes passed over, the chain from `current`, and the offset left. -/
def peek_skip :
    List SecureQueueNode → Nat → List SecureQueueNode × List SecureQueueNode × Nat
  | [], offset => ([], [], offset)
  | current :: rest, offset =>
    if offset > 0 then
      if offset ≥ current.size then
        let r := peek_skip rest (offset - current.size)
        (current :: r.1, r.2.1, r.2.2)
      else ([], current :: rest, offset)
    else ([], current :: rest, offset)

/-- The second `while` loop of `SecureQueue::peek` (secqueue.cpp 174-181): the
bytes got with their number, and the chain from `current` after the loop. -/
def peek_loop :
    List SecureQueueNode → Nat → Nat → (Nat × List Nat) × List SecureQueueNode
  | [], _, _ => ((0, []), [])
  | current :: rest, length, offset =>
    if length > 0 then
      let r := current.peek length offset
      let r2 := peek_loop rest (length - r.1.1) 0
      ((r.1.1 + r2.1.1, r.1.2 ++ r2.1.2), r.2 :: r2.2)
    else ((0, []), current :: rest)

/-- `SecureQueue::peek` (secqueue.cpp 161-183): the value returned with the
bytes copied to `output`, and the queue after the call. -/
def peek (self : SecureQueue) (length offset : Nat) : (Nat × List Nat) × SecureQueue :=
  let skipped := peek_skip self.m_head offset
  let r := peek_loop skipped.2.1 length skipped.2.2
  (r.1, { self with m_head := skipped.1 ++ r.2 })

/-- `SecureQueue::get_bytes_read` (secqueue.cpp 188-190). -/
def get_bytes_read (self : SecureQueue) : Nat := self.m_bytes_read

/-- `SecureQueue::size` (secqueue.cpp 195-204). -/
def size (self : SecureQueue) : Nat :=
  self.m_head.foldl (fun count current => count + current.size) 0

/-- `SecureQueue::end_of_data` (secqueue.cpp 209-211). -/
def end_of_data (self : SecureQueue) : Bool := decide (self.size = 0)

/-- `SecureQueue::empty` (secqueue.cpp 213-215). -/
def empty (self : SecureQueue) : Bool := decide (self.size = 0)

/-- The bytes held by a chain of nodes, oldest first. -/
def chain_contents : List SecureQueueNode → List Nat
  | [] => []
  | node :: rest => node.contents ++ chain_contents rest

/-- The bytes held by the queue, oldest first. -/
def contents (self : SecureQueue) : List Nat := chain_contents self.m_head

/-- The bounds hold on every node of the queue. -/
def WF (self : SecureQueue) : Prop := ∀ node ∈ self.m_head, node.WF

end SecureQueue

/-- One call on a queue. -/
inductive QOp where
  | write (input : List Nat)
  | read (length : Nat)
  | peek (length offset : Nat)
  deriving DecidableEq, Repr

/-- The record of a run: the results of the `read` calls so far (value
returned and bytes copied), oldest first, and the queue. -/
abbrev QState := List (Nat × List Nat) × SecureQueue

/-- The record after one more call; `none` when the call does not return. -/
def QOp.apply (DefaultBufferSize : Nat) (st : QState) : QOp → Option QState
  | QOp.write input =>
    match st.2.write DefaultBufferSize input with
    | none => none
    | some q => some (st.1, q)
  | QOp.read length =>
    match st.2.read length with
    | none => none
    | some r => some (st.1 ++ [r.1], r.2)
  | QOp.peek length offset => some (st.1, (st.2.peek length offset).2)

/-- The record after a sequence of calls, first call first. -/
def run_queue (DefaultBufferSize : Nat) : QState → List QOp → Option QState
  | st, [] => some st
  | st, op :: ops =>
    match op.apply DefaultBufferSize st with
    | none => none
    | some st2 => run_queue DefaultBufferSize st2 ops

/-- The bytes written by the `write` calls of a sequence, in order. -/
def written : List QOp → List Nat
  | [] => []
  | QOp.write input :: ops => input ++ written ops
  | _ :: ops => written ops

/-- The bytes copied out by the recorded `read` calls, in order. -/
def read_bytes : List (Nat × List Nat) → List Nat
  | [] => []
  | r :: rest => r.2 ++ read_bytes rest

/-- The sum of the values returned by the recorded `read` calls. -/
def read_total : List (Nat × List Nat) → Nat
  | [] => 0
  | r :: rest => r.1 + read_total rest

/-- The invariants of a run: the bounds hold on every node, every recorded
`read` returned the number of bytes it copied, and `m_bytes_read` is the sum
of the values returned, as a `size_t`. -/
def QInv (st : QState) : Prop :=
  st.2.WF ∧ (∀ r ∈ st.1, r.1 = r.2.length) ∧
    st.2.m_bytes_read = read_total st.1 % size_t_modulus

/-! ## Lemmas on the backend -/

theorem string_lt_irrefl (s : StdString) : string_lt s s = false := by
  induction s with
  | nil => rfl
  | cons a as ih => simp [string_lt, ih]

theorem kv_get_kv_set_same (db : Backend) (key value : StdString) :
    kv_get (kv_set db key value) key = value := by
  induction db with
  | nil => simp [kv_set, kv_get]
  | cons r rest ih =>
    obtain ⟨k, v⟩ := r
    unfold kv_set
    split_ifs with h1 h2
    · simp [kv_get]
    · simp [kv_get]
    · have hk : k ≠ key := fun h => h2 h.symm
      simp [kv_get, hk, ih]

theorem kv_get_kv_set_other (db : Backend) (key value key2 : StdString) (h : key ≠ key2) :
    kv_get (kv_set db key value) key2 = kv_get db key2 := by
  induction db with
  | nil => simp [kv_set, kv_get, h]
  | cons r rest ih =>
    obtain ⟨k, v⟩ := r
    unfold kv_set
    split_ifs with h1 h2
    · simp [kv_get, h]
    · subst h2
      simp [kv_get, h]
    · by_cases hk : k = key2
      · simp [kv_get, hk]
      · simp [kv_get, hk, ih]

theorem kv_get_kv_del_same (db : Backend) (key : StdString) :
    kv_get (kv_del db key) key = [] := by
  induction db with
  | nil => simp [kv_del, kv_get]
  | cons r rest ih =>
    obtain ⟨k, v⟩ := r
    by_cases hk : k = key
    · simpa [kv_del, hk] using ih
    · simpa [kv_del, hk, kv_get] using ih

theorem kv_set_kv_set (db : Backend) (key v1 v2 : StdString) :
    kv_set (kv_set db key v1) key v2 = kv_set db key v2 := by
  induction db with
  | nil => simp [kv_set, string_lt_irrefl]
  | cons r rest ih =>
    obtain ⟨k, v⟩ := r
    by_cases h1 : string_lt key k = true
    · simp [kv_set, h1, string_lt_irrefl]
    · by_cases h2 : key = k
      · subst h2
        simp [kv_set, string_lt_irrefl]
      · simp [kv_set, h1, h2, ih]

/-! ## Lemmas on `get` -/

theorem except_ok_bind {α β : Type} (a : α) (f : α → Except Exception β) :
    (Except.ok a >>= f) = f a := rfl

theorem except_error_bind {α β : Type} (e : Exception) (f : α → Except Exception β) :
    ((Except.error e : Except Exception α) >>= f) = Except.error e := rfl

/-- With no record under the backend key, `get` throws NotFound. -/
theorem get_of_absent (P : Primitives) (self : Encrypted_PSK_Database) (db : Backend)
    (name : StdString) (h : kv_get db (self.backend_key P name) = []) :
    self.get P db name = Except.error NotFound := by
  unfold Encrypted_PSK_Database.backend_key at h
  simp [Encrypted_PSK_Database.get, h, NotFound]

/-- With a record under the backend key, `get` is the decoded record unwrapped
under the per-entry key. -/
theorem get_of_present (P : Primitives) (self : Encrypted_PSK_Database) (db : Backend)
    (name : StdString) (h : kv_get db (self.backend_key P name) ≠ []) :
    self.get P db name =
      (P.base64_decode (kv_get db (self.backend_key P name)) >>=
        P.nist_key_unwrap_padded (self.entry_key P name)) := by
  unfold Encrypted_PSK_Database.backend_key at h
  simp [Encrypted_PSK_Database.get, Encrypted_PSK_Database.backend_key,
    Encrypted_PSK_Database.entry_key, List.isEmpty_iff, h]

/-! ## Lemmas on key sets and on `list_names` -/

theorem mem_set_insert (a x : StdString) (l : List StdString) :
    a ∈ set_insert x l ↔ a = x ∨ a ∈ l := by
  induction l with
  | nil => simp [set_insert]
  | cons y ys ih =>
    unfold set_insert
    split_ifs with h1 h2
    · simp
    · subst h2
      simp
    · simp only [List.mem_cons, ih]
      tauto

theorem mem_kv_get_all (db : Backend) (k : StdString) :
    k ∈ kv_get_all db ↔ k ∈ db.map Prod.fst := by
  unfold kv_get_all
  induction db.map Prod.fst with
  | nil => simp
  | cons y ys ih => simp [List.foldr_cons, mem_set_insert, ih]

theorem mem_keys_kv_set (db : Backend) (key value k : StdString) :
    k ∈ (kv_set db key value).map Prod.fst ↔ k = key ∨ k ∈ db.map Prod.fst := by
  induction db with
  | nil => simp [kv_set]
  | cons r rest ih =>
    obtain ⟨k0, v0⟩ := r
    unfold kv_set
    split_ifs with h1 h2
    · simp
    · subst h2
      simp
    · simp only [List.map_cons, List.mem_cons, ih]
      tauto

theorem mem_keys_kv_del (db : Backend) (key k : StdString) :
    k ∈ (kv_del db key).map Prod.fst ↔ k ≠ key ∧ k ∈ db.map Prod.fst := by
  simp only [kv_del, List.mem_map, List.mem_filter, decide_eq_true_eq]
  constructor
  · rintro ⟨r, ⟨hr, hne⟩, rfl⟩
    exact ⟨hne, r, hr, rfl⟩
  · rintro ⟨hne, r, hr, rfl⟩
    exact ⟨r, ⟨hr, hne⟩, rfl⟩

/-- When no remaining key throws anything but an authentication failure, the
loop of `list_names` returns, and the names it returns are the ones collected
so far together with the names recovered from the remaining keys. -/
theorem list_names_loop_ok (P : Primitives) (self : Encrypted_PSK_Database)
    (keys : List StdString)
    (h : ∀ k ∈ keys, ∀ e, self.list_names_entry P k = Except.error e →
      e.isAuthenticationFailure = true) (acc : List StdString) :
    ∃ names, self.list_names_loop P keys acc = Except.ok names ∧
      ∀ n, n ∈ names ↔ n ∈ acc ∨ ∃ k ∈ keys, self.list_names_entry P k = Except.ok n := by
  induction keys generalizing acc with
  | nil => exact ⟨acc, rfl, by simp⟩
  | cons k rest ih =>
    have hrest : ∀ k2 ∈ rest, ∀ e, self.list_names_entry P k2 = Except.error e →
        e.isAuthenticationFailure = true :=
      fun k2 hk2 => h k2 (List.mem_cons_of_mem _ hk2)
    unfold Encrypted_PSK_Database.list_names_loop
    cases hk : self.list_names_entry P k with
    | ok pt_name =>
      obtain ⟨names, hnames, hmem⟩ := ih hrest (set_insert pt_name acc)
      refine ⟨names, hnames, fun n => ?_⟩
      rw [hmem n, mem_set_insert]
      constructor
      · rintro ((rfl | hacc) | ⟨k2, hk2, hn⟩)
        · exact Or.inr ⟨k, List.mem_cons_self _ _, hk⟩
        · exact Or.inl hacc
        · exact Or.inr ⟨k2, List.mem_cons_of_mem _ hk2, hn⟩
      · rintro (hacc | ⟨k2, hk2, hn⟩)
        · exact Or.inl (Or.inr hacc)
        · rcases List.mem_cons.mp hk2 with rfl | hk2
          · rw [hk] at hn
            cases hn
            exact Or.inl (Or.inl rfl)
          · exact Or.inr ⟨k2, hk2, hn⟩
    | error e =>
      have he := h k (List.mem_cons_self _ _) e hk
      cases e with
      | Invalid_Argument msg => simp [Exception.isAuthenticationFailure] at he
      | Invalid_Authentication_Tag msg =>
        obtain ⟨names, hnames, hmem⟩ := ih hrest acc
        refine ⟨names, hnames, fun n => ?_⟩
        rw [hmem n]
        constructor
        · rintro (hacc | ⟨k2, hk2, hn⟩)
          · exact Or.inl hacc
          · exact Or.inr ⟨k2, List.mem_cons_of_mem _ hk2, hn⟩
        · rintro (hacc | ⟨k2, hk2, hn⟩)
          · exact Or.inl hacc
          · rcases List.mem_cons.mp hk2 with rfl | hk2
            · rw [hk] at hn
              cases hn
            · exact Or.inr ⟨k2, hk2, hn⟩

/-- The backend key of a name is a key from which `list_names` recovers the
name. -/
theorem list_names_entry_backend_key (P : Primitives) (hkw : UnwrapInvertsWrap P)
    (hb64 : DecodeInvertsEncode P) (self : Encrypted_PSK_Database) (n : StdString) :
    self.list_names_entry P (self.backend_key P n) = Except.ok n := by
  simp only [Encrypted_PSK_Database.list_names_entry, Encrypted_PSK_Database.backend_key,
    hb64 _, except_ok_bind, hkw _ _, as_span_of_bytes, bytes_to_string]
  rfl

/-- Different names have different backend keys. -/
theorem backend_key_injective (P : Primitives) (hkw : UnwrapInvertsWrap P)
    (hb64 : DecodeInvertsEncode P) (self : Encrypted_PSK_Database) (n m : StdString)
    (h : self.backend_key P n = self.backend_key P m) : n = m := by
  have h1 := list_names_entry_backend_key P hkw hb64 self n
  rw [h, list_names_entry_backend_key P hkw hb64 self m] at h1
  cases h1
  rfl

/-- The keys of the backend reached from the empty backend are the backend
keys of the names whose most recent call is a `set`. -/
theorem keys_run (P : Primitives) (hkw : UnwrapInvertsWrap P) (hb64 : DecodeInvertsEncode P)
    (self : Encrypted_PSK_Database) (ops : List Op) (db : Backend) (live : StdString → Bool)
    (hinv : ∀ k, k ∈ db.map Prod.fst ↔ ∃ n, live n = true ∧ k = self.backend_key P n) :
    ∀ k, k ∈ (ops.foldl (Op.apply P self) db).map Prod.fst ↔
      ∃ n, ops.foldl (Op.live_after n) (live n) = true ∧ k = self.backend_key P n := by
  induction ops generalizing db live with
  | nil => simpa using hinv
  | cons op rest ih =>
    intro k
    simp only [List.foldl_cons]
    refine ih (Op.apply P self db op) (fun n => Op.live_after n (live n) op) ?_ k
    intro k2
    cases op with
    | set name val =>
      have hset : Op.apply P self db (Op.set name val) =
          kv_set db (self.backend_key P name)
            (P.base64_encode (P.nist_key_wrap_padded (self.entry_key P name) val)) := rfl
      rw [hset, mem_keys_kv_set, hinv k2]
      constructor
      · rintro (rfl | ⟨n, hn, rfl⟩)
        · exact ⟨name, by simp [Op.live_after], rfl⟩
        · exact ⟨n, by simp [Op.live_after, hn], rfl⟩
      · rintro ⟨n, hn, rfl⟩
        by_cases hnm : name = n
        · subst hnm
          exact Or.inl rfl
        · simp only [Op.live_after, hnm, if_false] at hn
          exact Or.inr ⟨n, hn, rfl⟩
    | remove name =>
      have hrem : Op.apply P self db (Op.remove name) =
          kv_del db (self.backend_key P name) := rfl
      rw [hrem, mem_keys_kv_del, hinv k2]
      constructor
      · rintro ⟨hne, n, hn, rfl⟩
        have hnm : name ≠ n := fun h => hne (by rw [h])
        exact ⟨n, by simp [Op.live_after, hnm, hn], rfl⟩
      · rintro ⟨n, hn, rfl⟩
        by_cases hnm : name = n
        · subst hnm
          simp [Op.live_after] at hn
        · simp only [Op.live_after, hnm, if_false] at hn
          exact ⟨fun h => hnm (backend_key_injective P hkw hb64 self _ _ h).symm, n, hn, rfl⟩

/-- A string that differs from another in exactly one byte is not empty. -/
theorem ne_nil_of_differs_in_one_byte (s t : StdString) (h : differs_in_one_byte s t) :
    t ≠ [] := by
  intro ht
  subst ht
  have h2 := h.2
  cases s <;> simp [count_differences] at h2

/-- The body of the `try` block fails with the error of the decoder, or else
with the error of the unwrap. -/
theorem list_names_entry_error (P : Primitives) (self : Encrypted_PSK_Database)
    (k : StdString) (e : Exception)
    (h : P.base64_decode k = Except.error e ∨
      ∃ raw, P.base64_decode k = Except.ok raw ∧
        P.nist_key_unwrap_padded self.m_cipher raw = Except.error e) :
    self.list_names_entry P k = Except.error e := by
  unfold Encrypted_PSK_Database.list_names_entry
  rcases h with h | ⟨raw, hraw, h⟩
  · rw [h]
    rfl
  · rw [hraw, except_ok_bind, h]
    rfl

/-- The name recovered by the body of the `try` block. -/
theorem list_names_entry_ok_iff (P : Primitives) (self : Encrypted_PSK_Database)
    (k n : StdString) :
    self.list_names_entry P k = Except.ok n ↔
      ∃ raw bits, P.base64_decode k = Except.ok raw ∧
        P.nist_key_unwrap_padded self.m_cipher raw = Except.ok bits ∧
        n = bytes_to_string bits := by
  unfold Encrypted_PSK_Database.list_names_entry
  cases hdec : P.base64_decode k with
  | error e =>
    rw [except_error_bind]
    simp
  | ok raw =>
    rw [except_ok_bind]
    show (P.nist_key_unwrap_padded self.m_cipher raw >>=
      fun name_bits => pure (bytes_to_string name_bits)) = Except.ok n ↔ _
    cases hun : P.nist_key_unwrap_padded self.m_cipher raw with
    | error e =>
      rw [except_error_bind]
      constructor
      · intro h
        cases h
      · rintro ⟨raw2, bits2, h1, h2, _⟩
        cases h1
        rw [hun] at h2
        cases h2
    | ok bits =>
      rw [except_ok_bind]
      constructor
      · intro h
        cases h
        exact ⟨raw, bits, rfl, hun, rfl⟩
      · rintro ⟨raw2, bits2, h1, h2, rfl⟩
        cases h1
        rw [hun] at h2
        cases h2
        rfl

/-- When a remaining key throws something other than an authentication
failure, the loop of `list_names` fails with such an exception. -/
theorem list_names_loop_error (P : Primitives) (self : Encrypted_PSK_Database)
    (keys : List StdString) (k : StdString) (e : Exception) (hk : k ∈ keys)
    (he : self.list_names_entry P k = Except.error e)
    (hna : e.isAuthenticationFailure = false) (acc : List StdString) :
    ∃ e2, self.list_names_loop P keys acc = Except.error e2 ∧
      e2.isAuthenticationFailure = false := by
  induction keys generalizing acc with
  | nil => cases hk
  | cons k0 rest ih =>
    unfold Encrypted_PSK_Database.list_names_loop
    cases hk0 : self.list_names_entry P k0 with
    | ok pt_name =>
      rcases List.mem_cons.mp hk with rfl | hrest
      · rw [he] at hk0
        cases hk0
      · exact ih hrest (set_insert pt_name acc)
    | error e0 =>
      cases e0 with
      | Invalid_Argument msg => exact ⟨Exception.Invalid_Argument msg, rfl, rfl⟩
      | Invalid_Authentication_Tag msg =>
        rcases List.mem_cons.mp hk with rfl | hrest
        · rw [he] at hk0
          cases hk0
          simp [Exception.isAuthenticationFailure] at hna
        · exact ih hrest acc

/-! ## Lemmas on the toy primitives -/

theorem toy_unwrapInvertsWrap : UnwrapInvertsWrap toy := by
  intro key input
  simp [toy]

theorem toy_decodeInvertsEncode : DecodeInvertsEncode toy := by
  intro b
  simp [toy]

theorem toy_wrappedNonEmpty : WrappedNonEmpty toy := by
  intro key input
  simp [toy]

theorem toy_raisesNoNotFound : RaisesNoNotFound toy := by
  constructor
  · intro s
    simp only [toy]
    split <;> simp [NotFound]
  · intro key input
    simp only [toy]
    split
    · simp [NotFound]
    · split_ifs <;> simp [NotFound]

theorem toy_wrongKeyRejected : WrongKeyRejected toy := by
  intro key key2 input hne
  refine ⟨"NIST key unwrap failed", ?_⟩
  simp only [toy]
  rw [if_neg]
  rintro ⟨_, htake⟩
  simp at htake
  exact hne htake

theorem toy_forgeryRejected : ForgeryRejected toy := by
  intro key input forged hlen hnot
  refine ⟨"NIST key unwrap failed", ?_⟩
  cases forged with
  | nil => simp [toy] at hlen
  | cons n rest =>
    simp only [toy]
    rw [if_neg]
    rintro ⟨hn, htake⟩
    apply hnot (rest.drop n)
    simp only [toy]
    rw [← hn, ← htake, List.take_append_drop]

/-! ## Claims -/

/-- C1: round trip. For every master key, backend state, name and value
(empty ones included), `set(n, v)` followed by `get(n)` on the same store
returns exactly `v`, given that key unwrap inverts key wrap, base64 decode
inverts base64 encode, and an encoded wrapped value is never the empty
string. -/
theorem C1_set_then_get_round_trip (P : Primitives) (hkw : UnwrapInvertsWrap P)
    (hb64 : DecodeInvertsEncode P) (hne : WrappedNonEmpty P)
    (master_key : Bytes) (db : Backend) (n : StdString) (v : Bytes) :
    (Encrypted_PSK_Database.new P master_key).get P
      ((Encrypted_PSK_Database.new P master_key).set P db n v) n = Except.ok v := by
  have hrec : kv_get ((Encrypted_PSK_Database.new P master_key).set P db n v)
      ((Encrypted_PSK_Database.new P master_key).backend_key P n) =
      P.base64_encode (P.nist_key_wrap_padded
        ((Encrypted_PSK_Database.new P master_key).entry_key P n) v) := by
    simp [Encrypted_PSK_Database.set, Encrypted_PSK_Database.backend_key,
      Encrypted_PSK_Database.entry_key, kv_get_kv_set_same]
  rw [get_of_present P _ _ n (by rw [hrec]; exact hne _ _), hrec, hb64 _, except_ok_bind,
    hkw _ _]

/-- Witness for C1: the toy primitives meet the three contracts, and the
round trip holds there for the empty name and the empty value. -/
theorem C1_set_then_get_round_trip_witness :
    (Encrypted_PSK_Database.new toy [0, 0]).get toy
      ((Encrypted_PSK_Database.new toy [0, 0]).set toy [] [] []) [] = Except.ok [] :=
  C1_set_then_get_round_trip toy toy_unwrapInvertsWrap toy_decodeInvertsEncode
    toy_wrappedNonEmpty [0, 0] [] [] []

/-- C2: after `remove(n)`, `get(n)` fails with NotFound, for every store,
backend state and name, whether or not a record for `n` existed. -/
theorem C2_remove_then_get_not_found (P : Primitives) (self : Encrypted_PSK_Database)
    (db : Backend) (n : StdString) :
    self.get P (self.remove P db n) n = Except.error NotFound := by
  simp [Encrypted_PSK_Database.get, Encrypted_PSK_Database.remove, kv_get_kv_del_same, NotFound]

/-- C5: last write wins on one record. The backend state after
`set(n, v1); set(n, v2)` equals the state after `set(n, v2)` alone; with
`v1 = v2`, setting twice gives the same state as setting once. -/
theorem C5_set_set_last_write_wins (P : Primitives) (self : Encrypted_PSK_Database)
    (db : Backend) (n : StdString) (v1 v2 : Bytes) :
    self.set P (self.set P db n v1) n v2 = self.set P db n v2 ∧
      self.set P (self.set P db n v1) n v1 = self.set P db n v1 := by
  simp [Encrypted_PSK_Database.set, kv_set_kv_set]

/-- C3: enumeration correctness. Starting from an empty backend, after any
finite sequence of `set` and `remove` calls on one store, `list_names()`
returns, and a name is in the result exactly when the most recent call on it
was a `set`; after `set("a", x)`, `set("b", y)`, `remove("a")` the result is
exactly the set holding "b". -/
theorem C3_list_names_enumeration (P : Primitives) (hkw : UnwrapInvertsWrap P)
    (hb64 : DecodeInvertsEncode P) (self : Encrypted_PSK_Database) (ops : List Op)
    (x y : Bytes) :
    (∃ names, self.list_names P (run P self [] ops) = Except.ok names ∧
      ∀ n, n ∈ names ↔ last_op_is_set ops n = true) ∧
    self.list_names P
      (run P self [] [Op.set (str "a") x, Op.set (str "b") y, Op.remove (str "a")]) =
      Except.ok [str "b"] := by
  have hkeys := keys_run P hkw hb64 self ops [] (fun _ => false) (by simp)
  constructor
  · obtain ⟨names, hnames, hmem⟩ := list_names_loop_ok P self (kv_get_all (run P self [] ops))
      (fun k hk e he => by
        rw [mem_kv_get_all] at hk
        obtain ⟨n, _, rfl⟩ := (hkeys k).mp hk
        rw [list_names_entry_backend_key P hkw hb64 self n] at he
        cases he) []
    refine ⟨names, hnames, fun n => ?_⟩
    rw [hmem n]
    constructor
    · rintro (hnil | ⟨k, hk, hn⟩)
      · cases hnil
      · rw [mem_kv_get_all] at hk
        obtain ⟨m, hm, rfl⟩ := (hkeys k).mp hk
        rw [list_names_entry_backend_key P hkw hb64 self m] at hn
        cases hn
        exact hm
    · intro hn
      refine Or.inr ⟨self.backend_key P n, ?_, list_names_entry_backend_key P hkw hb64 self n⟩
      rw [mem_kv_get_all]
      exact (hkeys _).mpr ⟨n, hn, rfl⟩
  · have hab : self.backend_key P (str "b") ≠ self.backend_key P (str "a") := fun h => by
      have := backend_key_injective P hkw hb64 self _ _ h
      revert this
      decide
    have hdb : run P self [] [Op.set (str "a") x, Op.set (str "b") y, Op.remove (str "a")] =
        [(self.backend_key P (str "b"),
          P.base64_encode (P.nist_key_wrap_padded (self.entry_key P (str "b")) y))] := by
      simp only [run, List.foldl_cons, List.foldl_nil, Op.apply, Encrypted_PSK_Database.set,
        Encrypted_PSK_Database.remove]
      change kv_del (kv_set (kv_set [] (self.backend_key P (str "a")) _)
        (self.backend_key P (str "b")) _) (self.backend_key P (str "a")) = _
      simp only [kv_set]
      split_ifs with h1
      · simp [kv_del, hab]
        rfl
      · simp [kv_del, hab]
        rfl
    rw [hdb]
    simp only [Encrypted_PSK_Database.list_names, kv_get_all, List.map_cons, List.map_nil,
      List.foldr_cons, List.foldr_nil, set_insert, Encrypted_PSK_Database.list_names_loop,
      list_names_entry_backend_key P hkw hb64 self (str "b")]

/-- Witness for C3: the toy primitives meet the two contracts; the theorem
applies to the three calls of the scenario. -/
theorem C3_list_names_enumeration_witness :
    (∃ names, (Encrypted_PSK_Database.new toy [7]).list_names toy
        (run toy (Encrypted_PSK_Database.new toy [7]) []
          [Op.set (str "a") [1], Op.set (str "b") [2], Op.remove (str "a")]) =
        Except.ok names ∧
      ∀ n, n ∈ names ↔
        last_op_is_set [Op.set (str "a") [1], Op.set (str "b") [2], Op.remove (str "a")] n =
          true) ∧
    (Encrypted_PSK_Database.new toy [7]).list_names toy
      (run toy (Encrypted_PSK_Database.new toy [7]) []
        [Op.set (str "a") [1], Op.set (str "b") [2], Op.remove (str "a")]) =
      Except.ok [str "b"] :=
  C3_list_names_enumeration toy toy_unwrapInvertsWrap toy_decodeInvertsEncode
    (Encrypted_PSK_Database.new toy [7])
    [Op.set (str "a") [1], Op.set (str "b") [2], Op.remove (str "a")] [1] [2]

/-- C4 as stated fails: with a record present under the backend key of
"psk1" whose stored string the codec cannot decode, `get("psk1")` neither
returns a value nor fails with an authentication failure; it fails with the
`Invalid_Argument` thrown by the decoder. -/
theorem C4_present_record_counterexample :
    kv_get (kv_set [] ((Encrypted_PSK_Database.new toy [7]).backend_key toy (str "psk1")) (str "!"))
        ((Encrypted_PSK_Database.new toy [7]).backend_key toy (str "psk1")) = str "!" ∧
      (Encrypted_PSK_Database.new toy [7]).get toy
        (kv_set [] ((Encrypted_PSK_Database.new toy [7]).backend_key toy (str "psk1")) (str "!"))
        (str "psk1") = Except.error (Exception.Invalid_Argument "base64 decoding failed") ∧
      ¬ ((∃ v, (Encrypted_PSK_Database.new toy [7]).get toy
          (kv_set [] ((Encrypted_PSK_Database.new toy [7]).backend_key toy (str "psk1"))
            (str "!")) (str "psk1") = Except.ok v) ∨
        ∃ msg, (Encrypted_PSK_Database.new toy [7]).get toy
          (kv_set [] ((Encrypted_PSK_Database.new toy [7]).backend_key toy (str "psk1"))
            (str "!")) (str "psk1") =
          Except.error (Exception.Invalid_Authentication_Tag msg)) := by
  have hget : (Encrypted_PSK_Database.new toy [7]).get toy
      (kv_set [] ((Encrypted_PSK_Database.new toy [7]).backend_key toy (str "psk1")) (str "!"))
      (str "psk1") = Except.error (Exception.Invalid_Argument "base64 decoding failed") := by
    rfl
  refine ⟨by rfl, hget, ?_⟩
  rw [hget]
  simp

/-- C4, amended: `get(name)` fails with NotFound if and only if the backend
has no record under `base64_encode(KeyWrap(WrapKey, bytes(name)))` (`kv_get`
returns the empty string); when a record exists, `get` is exactly the decoded
record unwrapped under the per-entry key, so it returns the unwrapped value or
fails with the error that the decoder or the unwrap threw (an authentication
failure, or the decoder's invalid-input error), never with NotFound. The codec
and the unwrap are taken never to throw the NotFound exception themselves. -/
theorem C4_get_not_found_iff_absent (P : Primitives) (hnf : RaisesNoNotFound P)
    (self : Encrypted_PSK_Database) (db : Backend) (name : StdString) :
    (self.get P db name = Except.error NotFound ↔
      kv_get db (self.backend_key P name) = []) ∧
    (kv_get db (self.backend_key P name) ≠ [] →
      self.get P db name =
        (P.base64_decode (kv_get db (self.backend_key P name)) >>=
          P.nist_key_unwrap_padded (self.entry_key P name))) := by
  refine ⟨⟨fun hget => ?_, get_of_absent P self db name⟩, get_of_present P self db name⟩
  by_contra hrec
  rw [get_of_present P self db name hrec] at hget
  cases hdec : P.base64_decode (kv_get db (self.backend_key P name)) with
  | error e =>
    rw [hdec, except_error_bind] at hget
    cases hget
    exact hnf.1 _ hdec
  | ok val =>
    rw [hdec, except_ok_bind] at hget
    exact hnf.2 _ _ hget

/-- Witness for C4: the toy primitives never throw NotFound, and on the empty
backend `get` fails with NotFound. -/
theorem C4_get_not_found_iff_absent_witness :
    (Encrypted_PSK_Database.new toy [7]).get toy [] (str "psk1") = Except.error NotFound :=
  (C4_get_not_found_iff_absent toy toy_raisesNoNotFound (Encrypted_PSK_Database.new toy [7]) []
    (str "psk1")).1.mpr rfl

/-- C7 as stated fails: after `set("psk1", "s3cr3t-value")`, replacing the
stored encoded value by a string that differs from it in exactly one byte (its
first char, replaced by "!") makes `get("psk1")` fail with the
`Invalid_Argument` thrown by the decoder, not with an authentication
failure. -/
theorem C7_tamper_counterexample :
    differs_in_one_byte
        (kv_get ((Encrypted_PSK_Database.new toy [7]).set toy [] (str "psk1") (str "s3cr3t-value"))
          ((Encrypted_PSK_Database.new toy [7]).backend_key toy (str "psk1")))
        (33 :: (kv_get
          ((Encrypted_PSK_Database.new toy [7]).set toy [] (str "psk1") (str "s3cr3t-value"))
          ((Encrypted_PSK_Database.new toy [7]).backend_key toy (str "psk1"))).tail) ∧
      (Encrypted_PSK_Database.new toy [7]).get toy
        (kv_set ((Encrypted_PSK_Database.new toy [7]).set toy [] (str "psk1") (str "s3cr3t-value"))
          ((Encrypted_PSK_Database.new toy [7]).backend_key toy (str "psk1"))
          (33 :: (kv_get
            ((Encrypted_PSK_Database.new toy [7]).set toy [] (str "psk1") (str "s3cr3t-value"))
            ((Encrypted_PSK_Database.new toy [7]).backend_key toy (str "psk1"))).tail))
        (str "psk1") = Except.error (Exception.Invalid_Argument "base64 decoding failed") := by
  constructor
  · decide
  · rfl

/-- C7, amended: after `set(n, v)`, if the stored encoded value of the record
of `n` is replaced by any string that differs from it in exactly one byte,
then `get(n)` finds the record, and its outcome is the tampered string decoded
and unwrapped under the per-entry key. If the decoder rejects the tampered
string, `get(n)` fails with the error of the decoder (an invalid input, not an
authentication failure). If the tampered string decodes to bytes of the
length of the wrapped value that are not the wrap of any value under the
per-entry key, `get(n)` fails with an authentication failure (the key unwrap
rejects forged bytes). -/
theorem C7_tamper_detection (P : Primitives) (hforge : ForgeryRejected P)
    (self : Encrypted_PSK_Database) (db : Backend) (n : StdString) (v : Bytes)
    (tampered : StdString)
    (hdiff : differs_in_one_byte (kv_get (self.set P db n v) (self.backend_key P n)) tampered) :
    self.get P (kv_set (self.set P db n v) (self.backend_key P n) tampered) n =
      (P.base64_decode tampered >>= P.nist_key_unwrap_padded (self.entry_key P n)) ∧
    (∀ e, P.base64_decode tampered = Except.error e →
      self.get P (kv_set (self.set P db n v) (self.backend_key P n) tampered) n =
        Except.error e) ∧
    (∀ forged, P.base64_decode tampered = Except.ok forged →
      forged.length = (P.nist_key_wrap_padded (self.entry_key P n) v).length →
      (∀ v2, forged ≠ P.nist_key_wrap_padded (self.entry_key P n) v2) →
      ∃ msg, self.get P (kv_set (self.set P db n v) (self.backend_key P n) tampered) n =
        Except.error (Exception.Invalid_Authentication_Tag msg)) := by
  have hne := ne_nil_of_differs_in_one_byte _ _ hdiff
  have hget : self.get P (kv_set (self.set P db n v) (self.backend_key P n) tampered) n =
      (P.base64_decode tampered >>= P.nist_key_unwrap_padded (self.entry_key P n)) := by
    rw [get_of_present P self _ n (by rw [kv_get_kv_set_same]; exact hne), kv_get_kv_set_same]
  refine ⟨hget, ?_, ?_⟩
  · intro e he
    rw [hget, he, except_error_bind]
  · intro forged hdec hlen hnot
    obtain ⟨msg, hmsg⟩ := hforge (self.entry_key P n) v forged hlen hnot
    exact ⟨msg, by rw [hget, hdec, except_ok_bind, hmsg]⟩

/-- Witness for C7: with the toy primitives, changing one byte of the key
frame inside the stored value of "psk1" gives forged bytes, and `get` fails
with an authentication failure. -/
theorem C7_tamper_detection_witness :
    ∃ msg, (Encrypted_PSK_Database.new toy [7]).get toy
      (kv_set ((Encrypted_PSK_Database.new toy [7]).set toy [] (str "psk1") [5])
        ((Encrypted_PSK_Database.new toy [7]).backend_key toy (str "psk1"))
        (61 :: 0 :: ((Encrypted_PSK_Database.new toy [7]).entry_key toy (str "psk1") ++ [5])))
      (str "psk1") = Except.error (Exception.Invalid_Authentication_Tag msg) :=
  (C7_tamper_detection toy toy_forgeryRejected (Encrypted_PSK_Database.new toy [7]) []
    (str "psk1") [5]
    (61 :: 0 :: ((Encrypted_PSK_Database.new toy [7]).entry_key toy (str "psk1") ++ [5]))
    (by decide)).2.2
    (0 :: ((Encrypted_PSK_Database.new toy [7]).entry_key toy (str "psk1") ++ [5])) rfl rfl
    (fun v2 h => by
      have h0 := (List.cons.inj h).1
      revert h0
      decide)

/-- C8 as stated fails: with the record of "a" and one more backend key that is
not a valid encoding ("!"), `list_names()` fails with the `Invalid_Argument`
thrown by the decoder, although without that key it returns the name "a". -/
theorem C8_undecodable_key_counterexample :
    (Encrypted_PSK_Database.new toy [7]).list_names toy
        (kv_set ((Encrypted_PSK_Database.new toy [7]).set toy [] (str "a") [1]) (str "!")
          (str "x")) = Except.error (Exception.Invalid_Argument "base64 decoding failed") ∧
      (Encrypted_PSK_Database.new toy [7]).list_names toy
        ((Encrypted_PSK_Database.new toy [7]).set toy [] (str "a") [1]) =
        Except.ok [str "a"] := by
  constructor
  · rfl
  · rfl

/-- C8, amended: `list_names()` swallows authentication failures only. If some
backend key cannot be decoded by the codec, or decodes to bytes that the key
unwrap rejects, and the exception thrown is not an authentication failure,
then `list_names()` fails with an exception that is not an authentication
failure, and returns no names. -/
theorem C8_list_names_propagates_other_errors (P : Primitives) (self : Encrypted_PSK_Database)
    (db : Backend) (k : StdString) (e : Exception) (hk : k ∈ kv_get_all db)
    (hbad : P.base64_decode k = Except.error e ∨
      ∃ raw, P.base64_decode k = Except.ok raw ∧
        P.nist_key_unwrap_padded self.m_cipher raw = Except.error e)
    (hna : e.isAuthenticationFailure = false) :
    ∃ e2, self.list_names P db = Except.error e2 ∧ e2.isAuthenticationFailure = false :=
  list_names_loop_error P self (kv_get_all db) k e hk (list_names_entry_error P self k e hbad)
    hna []

/-- Witness for C8: with the toy primitives the backend key "!" is rejected
by the decoder with an `Invalid_Argument`, and `list_names()` fails. -/
theorem C8_list_names_propagates_other_errors_witness :
    ∃ e2, (Encrypted_PSK_Database.new toy [7]).list_names toy
        (kv_set ((Encrypted_PSK_Database.new toy [7]).set toy [] (str "a") [1]) (str "!")
          (str "x")) = Except.error e2 ∧ e2.isAuthenticationFailure = false :=
  C8_list_names_propagates_other_errors toy (Encrypted_PSK_Database.new toy [7])
    (kv_set ((Encrypted_PSK_Database.new toy [7]).set toy [] (str "a") [1]) (str "!") (str "x"))
    (str "!") (Exception.Invalid_Argument "base64 decoding failed") (by decide) (Or.inl rfl) rfl

/-- C9 as stated fails: every backend key decodes, but one of them (the
encoding of the empty byte string) decodes to bytes whose length the key
unwrap rejects with an `Invalid_Argument`; `list_names()` fails with that
exception, although without that key it returns the name "a". -/
theorem C9_malformed_length_counterexample :
    kv_get_all (kv_set ((Encrypted_PSK_Database.new toy [7]).set toy [] (str "a") [1])
        (toy.base64_encode []) (str "x")) =
        [toy.base64_encode [], (Encrypted_PSK_Database.new toy [7]).backend_key toy (str "a")] ∧
      toy.base64_decode (toy.base64_encode []) = Except.ok [] ∧
      toy.base64_decode ((Encrypted_PSK_Database.new toy [7]).backend_key toy (str "a")) =
        Except.ok (toy.nist_key_wrap_padded (Encrypted_PSK_Database.new toy [7]).m_cipher
          (str "a")) ∧
      toy.nist_key_unwrap_padded (Encrypted_PSK_Database.new toy [7]).m_cipher [] =
        Except.error (Exception.Invalid_Argument "Bad input size for NIST key unwrap") ∧
      (Encrypted_PSK_Database.new toy [7]).list_names toy
        (kv_set ((Encrypted_PSK_Database.new toy [7]).set toy [] (str "a") [1])
          (toy.base64_encode []) (str "x")) =
        Except.error (Exception.Invalid_Argument "Bad input size for NIST key unwrap") ∧
      (Encrypted_PSK_Database.new toy [7]).list_names toy
        ((Encrypted_PSK_Database.new toy [7]).set toy [] (str "a") [1]) =
        Except.ok [str "a"] :=
  ⟨rfl, rfl, rfl, rfl, rfl, rfl⟩

/-- C9, amended: `list_names()` swallows authentication failures. When every
backend key decodes and its unwrap under the wrap key either succeeds or fails
with an authentication failure, `list_names()` returns, and a name is in the
result exactly when it is the unwrap of the decoding of some backend key; a
key whose unwrap fails contributes no name and the other names are still
returned. When some backend key decodes to bytes that the unwrap rejects with
an exception other than the authentication failure, `list_names()` fails with
an exception that is not an authentication failure. -/
theorem C9_list_names_skips_authentication_failures (P : Primitives)
    (self : Encrypted_PSK_Database) (db : Backend) :
    ((∀ k ∈ kv_get_all db, ∃ raw, P.base64_decode k = Except.ok raw ∧
        ∀ e, P.nist_key_unwrap_padded self.m_cipher raw = Except.error e →
          e.isAuthenticationFailure = true) →
      ∃ names, self.list_names P db = Except.ok names ∧
        ∀ n, n ∈ names ↔ ∃ k ∈ kv_get_all db, ∃ raw bits,
          P.base64_decode k = Except.ok raw ∧
          P.nist_key_unwrap_padded self.m_cipher raw = Except.ok bits ∧
          n = bytes_to_string bits) ∧
    (∀ k raw e, k ∈ kv_get_all db → P.base64_decode k = Except.ok raw →
      P.nist_key_unwrap_padded self.m_cipher raw = Except.error e →
      e.isAuthenticationFailure = false →
      ∃ e2, self.list_names P db = Except.error e2 ∧ e2.isAuthenticationFailure = false) := by
  constructor
  · intro h
    obtain ⟨names, hnames, hmem⟩ := list_names_loop_ok P self (kv_get_all db)
      (fun k hk e he => by
        obtain ⟨raw, hraw, hauth⟩ := h k hk
        unfold Encrypted_PSK_Database.list_names_entry at he
        rw [hraw, except_ok_bind] at he
        cases hun : P.nist_key_unwrap_padded self.m_cipher raw with
        | error e2 =>
          rw [hun, except_error_bind] at he
          cases he
          exact hauth e hun
        | ok bits =>
          rw [hun, except_ok_bind] at he
          cases he) []
    refine ⟨names, hnames, fun n => ?_⟩
    rw [hmem n]
    simp only [List.not_mem_nil, false_or, list_names_entry_ok_iff]
  · intro k raw e hk hraw hun hna
    exact list_names_loop_error P self (kv_get_all db) k e hk
      (list_names_entry_error P self k e (Or.inr ⟨raw, hraw, hun⟩)) hna []

/-- Witness for C9: with the toy primitives, a backend holding the record of
"a" written by the store and a record written by a store with another master
key meets the hypothesis (the foreign key fails with an authentication
failure), so `list_names()` returns. -/
theorem C9_list_names_skips_authentication_failures_witness :
    ∃ names, (Encrypted_PSK_Database.new toy [7]).list_names toy
        ((Encrypted_PSK_Database.new toy [8]).set toy
          ((Encrypted_PSK_Database.new toy [7]).set toy [] (str "a") [1]) (str "b") [2]) =
        Except.ok names ∧
      ∀ n, n ∈ names ↔ ∃ k ∈ kv_get_all
          ((Encrypted_PSK_Database.new toy [8]).set toy
            ((Encrypted_PSK_Database.new toy [7]).set toy [] (str "a") [1]) (str "b") [2]),
        ∃ raw bits, toy.base64_decode k = Except.ok raw ∧
          toy.nist_key_unwrap_padded (Encrypted_PSK_Database.new toy [7]).m_cipher raw =
            Except.ok bits ∧
          n = bytes_to_string bits :=
  (C9_list_names_skips_authentication_failures toy (Encrypted_PSK_Database.new toy [7])
    ((Encrypted_PSK_Database.new toy [8]).set toy
      ((Encrypted_PSK_Database.new toy [7]).set toy [] (str "a") [1]) (str "b") [2])).1
    (fun k hk => by
      have hall : kv_get_all ((Encrypted_PSK_Database.new toy [8]).set toy
          ((Encrypted_PSK_Database.new toy [7]).set toy [] (str "a") [1]) (str "b") [2]) =
          [(Encrypted_PSK_Database.new toy [7]).backend_key toy (str "a"),
            (Encrypted_PSK_Database.new toy [8]).backend_key toy (str "b")] := rfl
      rw [hall] at hk
      rcases List.mem_cons.mp hk with rfl | hk2
      · exact ⟨_, rfl, fun e he => by
          have he2 : (Except.ok (str "a") : Except Exception Bytes) = Except.error e := he
          cases he2⟩
      · rcases List.mem_cons.mp hk2 with rfl | hk3
        · exact ⟨_, rfl, fun e he => by
            have he2 : (Except.error (Exception.Invalid_Authentication_Tag
              "NIST key unwrap failed") : Except Exception Bytes) = Except.error e := he
            cases he2
            rfl⟩
        · cases hk3)

set_option maxRecDepth 100000 in
/-- C10 as stated fails: with a MAC that pads its key with zero bytes, as
HMAC does, the different master keys `[7]` and `[7, 0]` give the same wrap key
and naming key, so the two stores are the same store: after
`A.set("psk1", [1])` the store B lists "psk1" and `B.get("psk1")` returns the
value. The key wrap and codec contracts hold for these primitives. -/
theorem C10_padded_master_key_counterexample :
    ([7] : Bytes) ≠ [7, 0] ∧
      UnwrapInvertsWrap toy_padded ∧ DecodeInvertsEncode toy_padded ∧
      WrongKeyRejected toy_padded ∧
      Encrypted_PSK_Database.new toy_padded [7, 0] = Encrypted_PSK_Database.new toy_padded [7] ∧
      (Encrypted_PSK_Database.new toy_padded [7, 0]).list_names toy_padded
        ((Encrypted_PSK_Database.new toy_padded [7]).set toy_padded [] (str "psk1") [1]) =
        Except.ok [str "psk1"] ∧
      (Encrypted_PSK_Database.new toy_padded [7, 0]).get toy_padded
        ((Encrypted_PSK_Database.new toy_padded [7]).set toy_padded [] (str "psk1") [1])
        (str "psk1") = Except.ok [1] :=
  ⟨by decide, toy_unwrapInvertsWrap, toy_decodeInvertsEncode, toy_wrongKeyRejected, rfl, rfl,
    rfl⟩

/-- C10, amended: cross-key isolation. For stores A and B built from master
keys whose derived wrap keys `MAC(MasterKey, "wrap")` differ, over one shared,
initially empty backend, after `A.set(n, v)` the backend holds the one record
of `n` and A lists `n`, but the entry is invisible to B: `B.list_names()` is
empty and `B.get(n)` fails with NotFound, not with an authentication failure,
because the wrapping of `n` by B matches no backend key (unwrap under a
different key being rejected). -/
theorem C10_cross_key_isolation (P : Primitives) (hkw : UnwrapInvertsWrap P)
    (hb64 : DecodeInvertsEncode P) (hrej : WrongKeyRejected P) (keyA keyB : Bytes)
    (hwrap : P.hmac keyA (as_span_of_bytes (str "wrap")) ≠
      P.hmac keyB (as_span_of_bytes (str "wrap")))
    (n : StdString) (v : Bytes) :
    (Encrypted_PSK_Database.new P keyA).set P [] n v =
        [((Encrypted_PSK_Database.new P keyA).backend_key P n,
          P.base64_encode (P.nist_key_wrap_padded
            ((Encrypted_PSK_Database.new P keyA).entry_key P n) v))] ∧
      (Encrypted_PSK_Database.new P keyA).list_names P
        ((Encrypted_PSK_Database.new P keyA).set P [] n v) = Except.ok [n] ∧
      (Encrypted_PSK_Database.new P keyB).list_names P
        ((Encrypted_PSK_Database.new P keyA).set P [] n v) = Except.ok [] ∧
      (Encrypted_PSK_Database.new P keyB).get P
        ((Encrypted_PSK_Database.new P keyA).set P [] n v) n = Except.error NotFound := by
  have hcipher : (Encrypted_PSK_Database.new P keyA).m_cipher ≠
      (Encrypted_PSK_Database.new P keyB).m_cipher := hwrap
  obtain ⟨msg, hmsg⟩ := hrej _ _ (as_span_of_bytes n) hcipher
  have hdb : (Encrypted_PSK_Database.new P keyA).set P [] n v =
      [((Encrypted_PSK_Database.new P keyA).backend_key P n,
        P.base64_encode (P.nist_key_wrap_padded
          ((Encrypted_PSK_Database.new P keyA).entry_key P n) v))] := rfl
  have hentry : (Encrypted_PSK_Database.new P keyB).list_names_entry P
      ((Encrypted_PSK_Database.new P keyA).backend_key P n) =
      Except.error (Exception.Invalid_Authentication_Tag msg) :=
    list_names_entry_error P _ _ _ (Or.inr ⟨_, hb64 _, hmsg⟩)
  have hkey : (Encrypted_PSK_Database.new P keyA).backend_key P n ≠
      (Encrypted_PSK_Database.new P keyB).backend_key P n := fun h => by
    rw [h, list_names_entry_backend_key P hkw hb64] at hentry
    cases hentry
  refine ⟨hdb, ?_, ?_, ?_⟩
  · rw [hdb]
    simp only [Encrypted_PSK_Database.list_names, kv_get_all, List.map_cons, List.map_nil,
      List.foldr_cons, List.foldr_nil, set_insert, Encrypted_PSK_Database.list_names_loop,
      list_names_entry_backend_key P hkw hb64 (Encrypted_PSK_Database.new P keyA) n]
  · rw [hdb]
    simp only [Encrypted_PSK_Database.list_names, kv_get_all, List.map_cons, List.map_nil,
      List.foldr_cons, List.foldr_nil, set_insert, Encrypted_PSK_Database.list_names_loop,
      hentry]
  · apply get_of_absent
    rw [hdb]
    simp [kv_get, hkey]

/-- Witness for C10: with the toy primitives the master keys `[7]` and `[8]`
derive different wrap keys; the store keyed with `[8]` does not see the entry
written by the store keyed with `[7]`. -/
theorem C10_cross_key_isolation_witness :
    (Encrypted_PSK_Database.new toy [7]).set toy [] (str "psk1") [1] =
        [((Encrypted_PSK_Database.new toy [7]).backend_key toy (str "psk1"),
          toy.base64_encode (toy.nist_key_wrap_padded
            ((Encrypted_PSK_Database.new toy [7]).entry_key toy (str "psk1")) [1]))] ∧
      (Encrypted_PSK_Database.new toy [7]).list_names toy
        ((Encrypted_PSK_Database.new toy [7]).set toy [] (str "psk1") [1]) =
        Except.ok [str "psk1"] ∧
      (Encrypted_PSK_Database.new toy [8]).list_names toy
        ((Encrypted_PSK_Database.new toy [7]).set toy [] (str "psk1") [1]) = Except.ok [] ∧
      (Encrypted_PSK_Database.new toy [8]).get toy
        ((Encrypted_PSK_Database.new toy [7]).set toy [] (str "psk1") [1]) (str "psk1") =
        Except.error NotFound :=
  C10_cross_key_isolation toy toy_unwrapInvertsWrap toy_decodeInvertsEncode
    toy_wrongKeyRejected [7] [8] (by decide) (str "psk1") [1]

/-! ## Further claims on the encrypted PSK database -/

/-- Every `kv_set` in the log of a run carries the encoding of a key wrap
output as key and as value, if the log at the start does. -/
theorem run_logged_writes (P : Primitives) (self : Encrypted_PSK_Database) (ops : List Op)
    (s : Backend × List Mutation)
    (h : ∀ k x, Mutation.kv_set k x ∈ s.2 →
      (∃ key input, k = P.base64_encode (P.nist_key_wrap_padded key input)) ∧
        ∃ key input, x = P.base64_encode (P.nist_key_wrap_padded key input)) :
    ∀ k x, Mutation.kv_set k x ∈ (run_logged P self s ops).2 →
      (∃ key input, k = P.base64_encode (P.nist_key_wrap_padded key input)) ∧
        ∃ key input, x = P.base64_encode (P.nist_key_wrap_padded key input) := by
  induction ops generalizing s with
  | nil => exact h
  | cons op rest ih =>
    unfold run_logged
    rw [List.foldl_cons]
    apply ih
    intro k x hk
    cases op with
    | set name val =>
      simp only [Op.apply_logged, Encrypted_PSK_Database.set_on, logged_backend,
        List.mem_append, List.mem_singleton, Mutation.kv_set.injEq] at hk
      rcases hk with hk | ⟨rfl, rfl⟩
      · exact h k x hk
      · exact ⟨⟨_, _, rfl⟩, ⟨_, _, rfl⟩⟩
    | remove name =>
      simp only [Op.apply_logged, Encrypted_PSK_Database.remove_on, logged_backend,
        List.mem_append, List.mem_singleton] at hk
      rcases hk with hk | hk
      · exact h k x hk
      · cases hk

/-- C11: record format and no plaintext at rest. Over every backend,
`set(name, value)` is exactly the one call `kv_set(k, x)` with
`k = encode(KeyWrap(WrapKey, bytes(name)))` and
`x = encode(KeyWrap(MAC(NamingKey, KeyWrap(WrapKey, bytes(name))), value))`, and
`remove(name)` is exactly the one call `kv_del(k)`; the log of mutating calls
grows by that one call; `get` and `list_names` read the backend only; so after
any sequence of calls every string written by `kv_set` is the encoding of a
key wrap output. -/
theorem C11_record_format (P : Primitives) (self : Encrypted_PSK_Database) (σ : Type)
    (B : KV_Backend σ) (s : σ) (db : Backend) (log : List Mutation) (name : StdString)
    (value : Bytes) (ops : List Op) :
    self.set_on B P s name value =
        B.kv_set s
          (P.base64_encode (P.nist_key_wrap_padded self.m_cipher (as_span_of_bytes name)))
          (P.base64_encode (P.nist_key_wrap_padded
            (P.hmac self.m_hmac (P.nist_key_wrap_padded self.m_cipher (as_span_of_bytes name)))
            value)) ∧
      self.remove_on B P s name =
        B.kv_del s
          (P.base64_encode (P.nist_key_wrap_padded self.m_cipher (as_span_of_bytes name))) ∧
      self.set_on logged_backend P (db, log) name value =
        (self.set P db name value,
          log ++ [Mutation.kv_set
            (P.base64_encode (P.nist_key_wrap_padded self.m_cipher (as_span_of_bytes name)))
            (P.base64_encode (P.nist_key_wrap_padded
              (P.hmac self.m_hmac
                (P.nist_key_wrap_padded self.m_cipher (as_span_of_bytes name)))
              value))]) ∧
      self.remove_on logged_backend P (db, log) name =
        (self.remove P db name,
          log ++ [Mutation.kv_del
            (P.base64_encode (P.nist_key_wrap_padded self.m_cipher (as_span_of_bytes name)))]) ∧
      self.get_on logged_backend P (db, log) name = self.get P db name ∧
      self.list_names_on logged_backend P (db, log) = self.list_names P db ∧
      (run_logged P self (db, []) ops).1 = run P self db ops ∧
      ∀ k x, Mutation.kv_set k x ∈ (run_logged P self (db, []) ops).2 →
        (∃ key input, k = P.base64_encode (P.nist_key_wrap_padded key input)) ∧
          ∃ key input, x = P.base64_encode (P.nist_key_wrap_padded key input) := by
  refine ⟨rfl, rfl, rfl, rfl, rfl, rfl, ?_, ?_⟩
  · have hgen : ∀ (ops : List Op) (db : Backend) (log : List Mutation),
        (run_logged P self (db, log) ops).1 = run P self db ops := by
      intro ops
      induction ops with
      | nil => intro db log; rfl
      | cons op rest ih =>
        intro db log
        unfold run_logged run
        rw [List.foldl_cons, List.foldl_cons]
        cases op with
        | set n v => exact ih _ _
        | remove n => exact ih _ _
    exact hgen ops db []
  · exact run_logged_writes P self ops (db, []) (fun k x hk => by cases hk)

/-- Witness for C11: with the toy primitives, the `kv_set` logged by
`set("a", [1])` carries encodings of key wrap outputs. -/
theorem C11_record_format_witness :
    (∃ key input,
        (Encrypted_PSK_Database.new toy [7]).backend_key toy (str "a") =
          toy.base64_encode (toy.nist_key_wrap_padded key input)) ∧
      ∃ key input,
        toy.base64_encode (toy.nist_key_wrap_padded
            ((Encrypted_PSK_Database.new toy [7]).entry_key toy (str "a")) [1]) =
          toy.base64_encode (toy.nist_key_wrap_padded key input) :=
  (C11_record_format toy (Encrypted_PSK_Database.new toy [7]) Backend map_backend [] [] []
    (str "a") [1] [Op.set (str "a") [1]]).2.2.2.2.2.2.2
    ((Encrypted_PSK_Database.new toy [7]).backend_key toy (str "a"))
    (toy.base64_encode (toy.nist_key_wrap_padded
      ((Encrypted_PSK_Database.new toy [7]).entry_key toy (str "a")) [1]))
    (by decide)

/-- C12: `remove` is total and idempotent. `remove(n)` always yields a backend
state; when no record exists under the backend key of `n` the state is
unchanged; and `remove(n); remove(n)` yields the same state as one
`remove(n)`. -/
theorem C12_remove_idempotent (P : Primitives) (self : Encrypted_PSK_Database) (db : Backend)
    (n : StdString) :
    (self.backend_key P n ∉ db.map Prod.fst → self.remove P db n = db) ∧
      self.remove P (self.remove P db n) n = self.remove P db n := by
  constructor
  · intro habs
    simp only [Encrypted_PSK_Database.remove, kv_del]
    apply List.filter_eq_self.mpr
    intro r hr
    simp only [decide_eq_true_eq]
    intro hk
    exact habs (List.mem_map.mpr ⟨r, hr, hk⟩)
  · simp only [Encrypted_PSK_Database.remove, kv_del, List.filter_filter, Bool.and_self]

/-- Witness for C12: with the toy primitives, removing "b" from a backend that
holds only the record of "a" leaves the backend unchanged. -/
theorem C12_remove_idempotent_witness :
    (Encrypted_PSK_Database.new toy [7]).remove toy
        ((Encrypted_PSK_Database.new toy [7]).set toy [] (str "a") [1]) (str "b") =
      (Encrypted_PSK_Database.new toy [7]).set toy [] (str "a") [1] :=
  (C12_remove_idempotent toy (Encrypted_PSK_Database.new toy [7])
    ((Encrypted_PSK_Database.new toy [7]).set toy [] (str "a") [1]) (str "b")).1 (by decide)

/-- C13: the string wrappers agree with the byte operations. `set_str(n, s)`
has the effect of `set(n, bytes of s)`; `get_str(n)` fails exactly when
`get(n)` fails, with the same error, and otherwise returns the value of
`get(n)` read as a string; so `set_str(n, s)` followed by `get_str(n)` returns
`s` (under the contracts of the round trip). -/
theorem C13_string_wrappers (P : Primitives) (hkw : UnwrapInvertsWrap P)
    (hb64 : DecodeInvertsEncode P) (hne : WrappedNonEmpty P) (self : Encrypted_PSK_Database)
    (db : Backend) (n s : StdString) :
    self.set_str P db n s = self.set P db n (as_span_of_bytes s) ∧
      (∀ e, self.get_str P db n = Except.error e ↔ self.get P db n = Except.error e) ∧
      (∀ v, self.get P db n = Except.ok v →
        self.get_str P db n = Except.ok (bytes_to_string v)) ∧
      self.get_str P (self.set_str P db n s) n = Except.ok s := by
  have hstr : ∀ db2, self.get_str P db2 n =
      (self.get P db2 n >>= fun psk => pure (bytes_to_string psk)) := fun _ => rfl
  refine ⟨rfl, ?_, ?_, ?_⟩
  · intro e
    rw [hstr]
    cases hget : self.get P db n with
    | error e2 => rw [except_error_bind]
    | ok v =>
      rw [except_ok_bind]
      constructor
      · intro h
        cases h
      · intro h
        cases h
  · intro v hget
    rw [hstr, hget, except_ok_bind]
    rfl
  · have hrec : kv_get (self.set P db n (as_span_of_bytes s)) (self.backend_key P n) =
        P.base64_encode (P.nist_key_wrap_padded (self.entry_key P n) (as_span_of_bytes s)) := by
      simp [Encrypted_PSK_Database.set, Encrypted_PSK_Database.backend_key,
        Encrypted_PSK_Database.entry_key, kv_get_kv_set_same]
    have hget : self.get P (self.set_str P db n s) n = Except.ok (as_span_of_bytes s) := by
      show self.get P (self.set P db n (as_span_of_bytes s)) n = _
      rw [get_of_present P _ _ n (by rw [hrec]; exact hne _ _), hrec, hb64 _, except_ok_bind,
        hkw _ _]
    rw [hstr, hget, except_ok_bind]
    rfl

/-- Witness for C13: with the toy primitives, `set_str` then `get_str` returns
the string. -/
theorem C13_string_wrappers_witness :
    (Encrypted_PSK_Database.new toy [7]).get_str toy
        ((Encrypted_PSK_Database.new toy [7]).set_str toy [] (str "psk1") (str "s3cr3t-value"))
        (str "psk1") = Except.ok (str "s3cr3t-value") :=
  (C13_string_wrappers toy toy_unwrapInvertsWrap toy_decodeInvertsEncode toy_wrappedNonEmpty
    (Encrypted_PSK_Database.new toy [7]) [] (str "psk1") (str "s3cr3t-value")).2.2.2

/-- C20 as stated fails: the wrap key depends on the order of the two
derivation steps. With the re-keying step of line 33 executed before the step
of line 32, the wrap key is the MAC of "wrap" under the naming key, which
differs from the wrap key of the constructor. -/
theorem C20_step_order_counterexample :
    (Encrypted_PSK_Database.derive_wrap_key toy
        (Encrypted_PSK_Database.derive_naming_key toy
          { m_cipher := [], m_hmac := [7] })).m_cipher =
        toy.hmac (toy.hmac [7] (str "hmac")) (str "wrap") ∧
      (Encrypted_PSK_Database.derive_wrap_key toy
        (Encrypted_PSK_Database.derive_naming_key toy
          { m_cipher := [], m_hmac := [7] })).m_cipher ≠
        (Encrypted_PSK_Database.new toy [7]).m_cipher := by
  decide

/-- C20, amended: for every master key the constructed store has
`WrapKey = MAC(MasterKey, "wrap")` and `NamingKey = MAC(MasterKey, "hmac")`: the
constructor is the step of line 32 followed by the step of line 33, and in
line 33 the MAC of "hmac" is computed before the MAC object is re-keyed. The
naming key does not depend on the wrap key and is the same in either order of
the two steps; the wrap key is `MAC(MasterKey, "wrap")` because its step comes
first: with the steps in the other order it is `MAC(NamingKey, "wrap")`. -/
theorem C20_sub_key_derivation (P : Primitives) (master_key cipher_key cipher_key2 : Bytes) :
    (Encrypted_PSK_Database.new P master_key).m_cipher =
        P.hmac master_key (as_span_of_bytes (str "wrap")) ∧
      (Encrypted_PSK_Database.new P master_key).m_hmac =
        P.hmac master_key (as_span_of_bytes (str "hmac")) ∧
      Encrypted_PSK_Database.new P master_key =
        Encrypted_PSK_Database.derive_naming_key P
          (Encrypted_PSK_Database.derive_wrap_key P
            { m_cipher := cipher_key, m_hmac := master_key }) ∧
      (Encrypted_PSK_Database.derive_naming_key P
          { m_cipher := cipher_key, m_hmac := master_key }).m_hmac =
        (Encrypted_PSK_Database.derive_naming_key P
          { m_cipher := cipher_key2, m_hmac := master_key }).m_hmac ∧
      (Encrypted_PSK_Database.derive_wrap_key P
          (Encrypted_PSK_Database.derive_naming_key P
            { m_cipher := cipher_key, m_hmac := master_key })).m_hmac =
        (Encrypted_PSK_Database.new P master_key).m_hmac ∧
      (Encrypted_PSK_Database.derive_wrap_key P
          (Encrypted_PSK_Database.derive_naming_key P
            { m_cipher := cipher_key, m_hmac := master_key })).m_cipher =
        P.hmac (P.hmac master_key (as_span_of_bytes (str "hmac")))
          (as_span_of_bytes (str "wrap")) :=
  ⟨rfl, rfl, rfl, rfl, rfl, rfl⟩

/-! ## Claims on `Key_Length_Specification` -/

/-- C14 as stated fails: for the specification built by
`Key_Length_Specification(0, 16, 0)` and the length 0, the length is within
the bounds and is a multiple of `keylength_multiple()`, but `valid_keylength`
divides by zero and returns no value. -/
theorem C14_zero_multiple_counterexample :
    (Key_Length_Specification.variable_length 0 16 0).minimum_keylength ≤ 0 ∧
      0 ≤ (Key_Length_Specification.variable_length 0 16 0).maximum_keylength ∧
      (Key_Length_Specification.variable_length 0 16 0).keylength_multiple ∣ 0 ∧
      (Key_Length_Specification.variable_length 0 16 0).valid_keylength 0 = none ∧
      (Key_Length_Specification.variable_length 0 16 0).valid_keylength 0 ≠ some true := by
  decide

/-- C14, amended: for every specification whose `keylength_multiple()` is not
zero, `valid_keylength(length)` returns, and returns true if and only if
`minimum_keylength() <= length <= maximum_keylength()` and `length` is a
multiple of `keylength_multiple()`; for a specification built with the
fixed-length constructor it returns, and returns true if and only if
`length == keylen`. -/
theorem C14_valid_keylength (s : Key_Length_Specification) (length keylen : Nat)
    (hmod : s.keylength_multiple ≠ 0) :
    (∃ b, s.valid_keylength length = some b) ∧
    (s.valid_keylength length = some true ↔
      s.minimum_keylength ≤ length ∧ length ≤ s.maximum_keylength ∧
        s.keylength_multiple ∣ length) ∧
    (∃ b, (Key_Length_Specification.fixed_length keylen).valid_keylength length = some b) ∧
    ((Key_Length_Specification.fixed_length keylen).valid_keylength length = some true ↔
      length = keylen) := by
  have hmod2 : s.m_keylen_mod ≠ 0 := hmod
  refine ⟨?_, ?_, ?_, ?_⟩
  · unfold Key_Length_Specification.valid_keylength
    split_ifs <;> exact ⟨_, rfl⟩
  · simp only [Key_Length_Specification.valid_keylength,
      Key_Length_Specification.minimum_keylength, Key_Length_Specification.maximum_keylength,
      Key_Length_Specification.keylength_multiple, Nat.dvd_iff_mod_eq_zero]
    split_ifs with h1 h2 <;> simp_all
  · have hone : (Key_Length_Specification.fixed_length keylen).m_keylen_mod ≠ 0 := by
      simp [Key_Length_Specification.fixed_length]
    unfold Key_Length_Specification.valid_keylength
    split_ifs <;> exact ⟨_, rfl⟩
  · simp only [Key_Length_Specification.valid_keylength, Key_Length_Specification.fixed_length]
    split_ifs with h1 h2 h3
    · simp at h3
    · simp [Nat.mod_one]
      omega
    · simp
      omega
    · simp
      omega

/-- Witness for C14: the specification of a 16 to 32 byte key in steps of 8
accepts the length 24. -/
theorem C14_valid_keylength_witness :
    (Key_Length_Specification.variable_length 16 32 8).valid_keylength 24 = some true :=
  (C14_valid_keylength (Key_Length_Specification.variable_length 16 32 8) 24 24
    (by decide)).2.1.mpr (by decide)

/-- C19 as stated fails: for the specification built by
`Key_Length_Specification(1, 2^32, 1)` and the factor `2^32`, the product of the
factor and the maximum is 0 in `size_t` arithmetic, but `multiple` returns a
specification whose maximum is `2^32` (the constructor replaces a zero maximum
by the minimum). -/
theorem C19_multiple_counterexample :
    ((Key_Length_Specification.variable_length 1 (2 ^ 32) 1).multiple (2 ^ 32)).maximum_keylength =
        2 ^ 32 ∧
      (2 ^ 32 * (Key_Length_Specification.variable_length 1 (2 ^ 32) 1).maximum_keylength) %
        size_t_modulus = 0 := by
  decide

/-- C19, amended: for every specification `s` and factor `n`, `s.multiple(n)`
has `minimum_keylength()` and `keylength_multiple()` equal to the products
with `n` modulo `2^64`; its `maximum_keylength()` is the product
`n * s.maximum_keylength()` modulo `2^64` when that is not zero, and otherwise
the new minimum. When `s` has a zero maximum only together with a zero minimum
(as every constructed specification has) and the product with the maximum
does not exceed the range of `size_t`, the maximum is the exact product. -/
theorem C19_multiple (s : Key_Length_Specification) (n min_k max_k k_mod keylen : Nat) :
    (s.multiple n).minimum_keylength = (n * s.minimum_keylength) % size_t_modulus ∧
    (s.multiple n).keylength_multiple = (n * s.keylength_multiple) % size_t_modulus ∧
    (s.multiple n).maximum_keylength =
      (if (n * s.maximum_keylength) % size_t_modulus > 0
        then (n * s.maximum_keylength) % size_t_modulus
        else (n * s.minimum_keylength) % size_t_modulus) ∧
    ((s.maximum_keylength = 0 → s.minimum_keylength = 0) →
      n * s.maximum_keylength < size_t_modulus →
      (s.multiple n).maximum_keylength = n * s.maximum_keylength) ∧
    ((Key_Length_Specification.fixed_length keylen).maximum_keylength = 0 →
      (Key_Length_Specification.fixed_length keylen).minimum_keylength = 0) ∧
    ((Key_Length_Specification.variable_length min_k max_k k_mod).maximum_keylength = 0 →
      (Key_Length_Specification.variable_length min_k max_k k_mod).minimum_keylength = 0) := by
  refine ⟨rfl, rfl, rfl, ?_, fun h => h, ?_⟩
  · intro hzero hlt
    simp only [Key_Length_Specification.multiple, Key_Length_Specification.variable_length,
      Key_Length_Specification.maximum_keylength, Key_Length_Specification.minimum_keylength]
      at hzero hlt ⊢
    rw [Nat.mod_eq_of_lt hlt]
    split_ifs with h
    · rfl
    · have h0 : n * s.m_max_keylen = 0 := by omega
      rcases Nat.mul_eq_zero.mp h0 with hn | hm
      · subst hn
        simp
      · rw [hzero hm, hm]
        simp
  · simp only [Key_Length_Specification.variable_length,
      Key_Length_Specification.maximum_keylength, Key_Length_Specification.minimum_keylength]
    split_ifs with h
    · omega
    · exact fun h2 => h2

/-- Witness for C19: doubling the specification of a 16 byte key gives a
maximum of 32 bytes, the exact product. -/
theorem C19_multiple_witness :
    ((Key_Length_Specification.fixed_length 16).multiple 2).maximum_keylength =
      2 * (Key_Length_Specification.fixed_length 16).maximum_keylength :=
  (C19_multiple (Key_Length_Specification.fixed_length 16) 2 0 0 1 16).2.2.2.1
    (by decide) (by decide)

/-! ## Lemmas on `SecureQueue` -/

theorem copy_mem_contents (buf input : List Nat) (s e : Nat) (hse : s ≤ e)
    (hfit : e + input.length ≤ buf.length) :
    ((copy_mem buf e input).drop s).take (e + input.length - s) =
      (buf.drop s).take (e - s) ++ input := by
  have he : e ≤ buf.length := by omega
  unfold copy_mem
  have hlen : (buf.take e).length = e := by simp [he]
  rw [List.append_assoc, List.drop_append_of_le_length (by omega)]
  rw [List.take_append_eq_append_take]
  have h1 : ((buf.take e).drop s).length = e - s := by simp [he]
  rw [h1, List.take_of_length_le (by omega)]
  have h2 : e + input.length - s - (e - s) = input.length := by omega
  rw [h2, List.take_append_eq_append_take, List.take_length]
  simp
  rw [List.drop_take]

theorem copy_mem_length (buf input : List Nat) (e : Nat)
    (hfit : e + input.length ≤ buf.length) :
    (copy_mem buf e input).length = buf.length := by
  unfold copy_mem
  simp
  omega

/-- On a node within its bounds, `size()` is the number of bytes held. -/
theorem node_contents_length (node : SecureQueueNode) (h : node.WF) :
    node.contents.length = node.size := by
  obtain ⟨h1, h2⟩ := h
  simp only [SecureQueueNode.contents, SecureQueueNode.size, List.length_take, List.length_drop]
  omega

theorem node_new_wf (cap : Nat) : (SecureQueueNode.new cap).WF := by
  simp [SecureQueueNode.new, SecureQueueNode.WF]

theorem node_new_contents (cap : Nat) : (SecureQueueNode.new cap).contents = [] := by
  simp [SecureQueueNode.new, SecureQueueNode.contents]

/-- `SecureQueueNode::write` appends as much of the input as fits. -/
theorem node_write_spec (node : SecureQueueNode) (h : node.WF) (input : List Nat) :
    (node.write input).1 = min input.length (node.m_buffer.length - node.m_end) ∧
      (node.write input).2.WF ∧
      (node.write input).2.contents = node.contents ++ input.take (node.write input).1 ∧
      (node.write input).2.m_buffer.length = node.m_buffer.length ∧
      (node.write input).2.m_end = node.m_end + (node.write input).1 := by
  obtain ⟨h1, h2⟩ := h
  have hc : (input.take (min input.length (node.m_buffer.length - node.m_end))).length =
      min input.length (node.m_buffer.length - node.m_end) := by
    simp
  have hfit : node.m_end +
      (input.take (min input.length (node.m_buffer.length - node.m_end))).length ≤
      node.m_buffer.length := by
    rw [hc]
    omega
  have hlen := copy_mem_length node.m_buffer _ node.m_end hfit
  refine ⟨rfl, ?_, ?_, hlen, rfl⟩
  · simp only [SecureQueueNode.write, SecureQueueNode.WF]
    rw [hlen]
    omega
  · have hcm := copy_mem_contents node.m_buffer _ node.m_start node.m_end h1 hfit
    rw [hc] at hcm
    simp only [SecureQueueNode.write, SecureQueueNode.contents]
    exact hcm

/-- `SecureQueueNode::read` takes the oldest bytes of the node. -/
theorem node_read_spec (node : SecureQueueNode) (h : node.WF) (length : Nat) :
    (node.read length).1.1 = min length node.contents.length ∧
      (node.read length).1.2 = node.contents.take length ∧
      (node.read length).2.WF ∧
      (node.read length).2.contents = node.contents.drop length ∧
      (node.read length).2.size = node.contents.length - length := by
  have hsize := node_contents_length node h
  obtain ⟨h1, h2⟩ := h
  simp only [SecureQueueNode.size] at hsize
  have hread : node.read length =
      ((min length (node.m_end - node.m_start),
        (node.m_buffer.drop node.m_start).take (min length (node.m_end - node.m_start))),
        { node with m_start := node.m_start + min length (node.m_end - node.m_start) }) := rfl
  rw [hread]
  by_cases hl : length ≤ node.m_end - node.m_start
  · rw [Nat.min_eq_left hl]
    refine ⟨?_, ?_, ?_, ?_, ?_⟩
    · simp only [hsize, Nat.min_eq_left hl]
    · simp only [SecureQueueNode.contents, List.take_take, Nat.min_eq_left hl]
    · simp only [SecureQueueNode.WF]
      omega
    · simp only [SecureQueueNode.contents]
      rw [List.drop_take, List.drop_drop]
      have e1 : node.m_end - (node.m_start + length) = node.m_end - node.m_start - length := by
        omega
      have e2 : node.m_start + length = length + node.m_start := by omega
      rw [e1, e2]
    · simp only [SecureQueueNode.size, hsize]
      omega
  · have hl2 : node.m_end - node.m_start ≤ length := by omega
    rw [Nat.min_eq_right hl2]
    refine ⟨?_, ?_, ?_, ?_, ?_⟩
    · simp only [hsize, Nat.min_eq_right hl2]
    · simp only [SecureQueueNode.contents]
      rw [List.take_take, Nat.min_eq_right hl2]
    · simp only [SecureQueueNode.WF]
      omega
    · have hnil : node.contents.drop length = [] := by
        apply List.drop_eq_nil_of_le
        omega
      rw [hnil]
      simp only [SecureQueueNode.contents]
      have e1 : node.m_end - (node.m_start + (node.m_end - node.m_start)) = 0 := by omega
      rw [e1, List.take_zero]
    · simp only [SecureQueueNode.size, hsize]
      omega

/-- `SecureQueueNode::peek` copies bytes of the node and leaves it unchanged. -/
theorem node_peek_spec (node : SecureQueueNode) (h : node.WF) (length offset : Nat) :
    (node.peek length offset).1.1 = min length (node.contents.length - offset) ∧
      (node.peek length offset).1.2 = (node.contents.drop offset).take length ∧
      (node.peek length offset).2 = node := by
  have hsize := node_contents_length node h
  obtain ⟨h1, h2⟩ := h
  simp only [SecureQueueNode.size] at hsize
  by_cases hoff : offset ≥ node.m_end - node.m_start
  · have hpeek : node.peek length offset = ((0, []), node) := by
      simp only [SecureQueueNode.peek, if_pos hoff]
    rw [hpeek]
    refine ⟨?_, ?_, rfl⟩
    · simp only [hsize]
      omega
    · have : node.contents.drop offset = [] := by
        apply List.drop_eq_nil_of_le
        omega
      simp [this]
  · have hpeek : node.peek length offset =
        ((min length (node.m_end - node.m_start - offset),
          (node.m_buffer.drop (node.m_start + offset)).take
            (min length (node.m_end - node.m_start - offset))), node) := by
      simp only [SecureQueueNode.peek, if_neg hoff]
    rw [hpeek]
    refine ⟨?_, ?_, rfl⟩
    · simp only [hsize]
    · simp only [SecureQueueNode.contents]
      rw [List.drop_take, List.drop_drop, List.take_take]

theorem chain_contents_append (a b : List SecureQueueNode) :
    SecureQueue.chain_contents (a ++ b) =
      SecureQueue.chain_contents a ++ SecureQueue.chain_contents b := by
  induction a with
  | nil => rfl
  | cons node rest ih => simp [SecureQueue.chain_contents, ih]

theorem chain_contents_singleton (node : SecureQueueNode) :
    SecureQueue.chain_contents [node] = node.contents := by
  simp [SecureQueue.chain_contents]

theorem dropLast_append_getLastD (chain : List SecureQueueNode) (d : SecureQueueNode)
    (h : chain ≠ []) : chain.dropLast ++ [chain.getLastD d] = chain := by
  induction chain generalizing d with
  | nil => exact absurd rfl h
  | cons node rest ih =>
    cases rest with
    | nil => rfl
    | cons node2 rest2 =>
      have := ih node (List.cons_ne_nil node2 rest2)
      simpa [List.dropLast, List.getLastD] using this

/-- The loop of `SecureQueue::write` returns when the bound covers one
iteration for each remaining byte, and one more if `m_tail` is full; the chain
it leaves holds the bytes held before followed by the input. -/
theorem write_loop_spec (cap : Nat) (hcap : 0 < cap) (fuel : Nat) :
    ∀ (front : List SecureQueueNode) (tail : SecureQueueNode) (input : List Nat),
      (∀ node ∈ front, node.WF) → tail.WF →
      input.length + (if tail.m_end < tail.m_buffer.length then 0 else 1) ≤ fuel →
      ∃ chain, SecureQueue.write_loop cap fuel front tail input = some chain ∧
        (∀ node ∈ chain, node.WF) ∧
        SecureQueue.chain_contents chain =
          SecureQueue.chain_contents front ++ tail.contents ++ input := by
  induction fuel with
  | zero =>
    intro front tail input hfront htail hfuel
    cases input with
    | nil =>
      refine ⟨front ++ [tail], rfl, ?_, ?_⟩
      · intro node hnode
        rcases List.mem_append.mp hnode with h | h
        · exact hfront node h
        · rw [List.mem_singleton.mp h]
          exact htail
      · simp [chain_contents_append, SecureQueue.chain_contents]
    | cons b bs =>
      simp at hfuel
  | succ fuel ih =>
    intro front tail input hfront htail hfuel
    cases input with
    | nil =>
      refine ⟨front ++ [tail], rfl, ?_, ?_⟩
      · intro node hnode
        rcases List.mem_append.mp hnode with h | h
        · exact hfront node h
        · rw [List.mem_singleton.mp h]
          exact htail
      · simp [chain_contents_append, SecureQueue.chain_contents]
    | cons b bs =>
      obtain ⟨hn, hwf, hcont, hlen, hend⟩ := node_write_spec tail htail (b :: bs)
      have hstep : SecureQueue.write_loop cap (fuel + 1) front tail (b :: bs) =
          if ((b :: bs).drop (tail.write (b :: bs)).1).length > 0 then
            SecureQueue.write_loop cap fuel (front ++ [(tail.write (b :: bs)).2])
              (SecureQueueNode.new cap) ((b :: bs).drop (tail.write (b :: bs)).1)
          else SecureQueue.write_loop cap fuel front (tail.write (b :: bs)).2
            ((b :: bs).drop (tail.write (b :: bs)).1) := rfl
      rw [hstep]
      have hdroplen : ((b :: bs).drop (tail.write (b :: bs)).1).length =
          (b :: bs).length - (tail.write (b :: bs)).1 := List.length_drop _ _
      have htw := htail.2
      by_cases hmore : ((b :: bs).drop (tail.write (b :: bs)).1).length > 0
      · rw [if_pos hmore]
        have hfront2 : ∀ node ∈ front ++ [(tail.write (b :: bs)).2], node.WF := by
          intro node hnode
          rcases List.mem_append.mp hnode with h | h
          · exact hfront node h
          · rw [List.mem_singleton.mp h]
            exact hwf
        have hfuel2 : ((b :: bs).drop (tail.write (b :: bs)).1).length +
            (if (SecureQueueNode.new cap).m_end < (SecureQueueNode.new cap).m_buffer.length
              then 0 else 1) ≤ fuel := by
          have hnew : (SecureQueueNode.new cap).m_end <
              (SecureQueueNode.new cap).m_buffer.length := by
            simp [SecureQueueNode.new, hcap]
          rw [if_pos hnew, hdroplen, hn]
          rw [hdroplen, hn] at hmore
          split_ifs at hfuel with hfree
          · omega
          · omega
        obtain ⟨chain, hchain, hcwf, hcc⟩ := ih _ (SecureQueueNode.new cap) _ hfront2
          (node_new_wf cap) hfuel2
        refine ⟨chain, hchain, hcwf, ?_⟩
        rw [hcc, chain_contents_append, chain_contents_singleton, node_new_contents, hcont]
        simp only [List.append_nil, List.append_assoc]
        rw [List.take_append_drop]
      · rw [if_neg hmore]
        have hnil : (b :: bs).drop (tail.write (b :: bs)).1 = [] := by
          apply List.eq_nil_of_length_eq_zero
          omega
        rw [hnil]
        refine ⟨front ++ [(tail.write (b :: bs)).2], ?_, ?_, ?_⟩
        · cases fuel <;> rfl
        · intro node hnode
          rcases List.mem_append.mp hnode with h | h
          · exact hfront node h
          · rw [List.mem_singleton.mp h]
            exact hwf
        · rw [chain_contents_append, chain_contents_singleton, hcont]
          have htake : (b :: bs).take (tail.write (b :: bs)).1 = b :: bs := by
            have := List.take_append_drop (tail.write (b :: bs)).1 (b :: bs)
            rw [hnil, List.append_nil] at this
            exact this
          rw [htake]
          simp

/-- `SecureQueue::write` returns (for a positive node buffer size) and appends
the input to the bytes held; `m_bytes_read` is unchanged. -/
theorem queue_write_spec (cap : Nat) (hcap : 0 < cap) (q : SecureQueue) (hq : q.WF)
    (input : List Nat) :
    ∃ q2, q.write cap input = some q2 ∧ q2.WF ∧ q2.contents = q.contents ++ input ∧
      q2.m_bytes_read = q.m_bytes_read := by
  have hchain : ∀ chain : List SecureQueueNode, chain ≠ [] → (∀ node ∈ chain, node.WF) →
      ∃ chain2, SecureQueue.write_loop cap (input.length + 1) chain.dropLast
          (chain.getLastD (SecureQueueNode.new cap)) input = some chain2 ∧
        (∀ node ∈ chain2, node.WF) ∧
        SecureQueue.chain_contents chain2 = SecureQueue.chain_contents chain ++ input := by
    intro chain hne hwf
    have hsplit := dropLast_append_getLastD chain (SecureQueueNode.new cap) hne
    have hfront : ∀ node ∈ chain.dropLast, node.WF := fun node hnode =>
      hwf node (List.mem_of_mem_dropLast hnode)
    have htail : (chain.getLastD (SecureQueueNode.new cap)).WF := by
      apply hwf
      rw [← hsplit]
      simp
    obtain ⟨chain2, h1, h2, h3⟩ := write_loop_spec cap hcap (input.length + 1) chain.dropLast
      (chain.getLastD (SecureQueueNode.new cap)) input hfront htail (by split_ifs <;> omega)
    refine ⟨chain2, h1, h2, ?_⟩
    rw [h3]
    nth_rewrite 3 [← hsplit]
    rw [chain_contents_append]
    simp [SecureQueue.chain_contents]
  unfold SecureQueue.write
  by_cases hempty : q.m_head = []
  · obtain ⟨chain2, h1, h2, h3⟩ := hchain [SecureQueueNode.new cap] (by simp)
      (fun node hnode => by
        rw [List.mem_singleton.mp hnode]
        exact node_new_wf cap)
    simp only [hempty, List.isEmpty_nil, if_true]
    rw [h1]
    refine ⟨_, rfl, h2, ?_, rfl⟩
    simp only [SecureQueue.contents, h3, hempty, SecureQueue.chain_contents, node_new_contents,
      List.append_nil]
  · obtain ⟨chain2, h1, h2, h3⟩ := hchain q.m_head hempty hq
    have hne : q.m_head.isEmpty = false := by
      cases hm : q.m_head with
      | nil => exact absurd hm hempty
      | cons a b => rfl
    simp only [hne, Bool.false_eq_true, if_false]
    rw [h1]
    exact ⟨_, rfl, h2, h3, rfl⟩

theorem min_add_min_sub (a l r : Nat) (h : a ≤ l) : a + min (l - a) r = min l (a + r) := by
  simp only [Nat.min_def]
  split_ifs <;> omega

theorem min_sub_add_min (l a r offset : Nat) (h : offset ≤ a) :
    min l (a - offset) + min (l - min l (a - offset)) (r - 0) = min l (a + r - offset) := by
  simp only [Nat.min_def]
  split_ifs <;> omega

/-- The loop of `SecureQueue::read` returns when the bound covers one
iteration for each node; it takes the oldest bytes of the chain. -/
theorem read_loop_spec (fuel : Nat) :
    ∀ (chain : List SecureQueueNode) (length : Nat),
      (∀ node ∈ chain, node.WF) → chain.length ≤ fuel →
      ∃ chain2, SecureQueue.read_loop fuel chain length =
          some ((min length (SecureQueue.chain_contents chain).length,
            (SecureQueue.chain_contents chain).take length), chain2) ∧
        (∀ node ∈ chain2, node.WF) ∧
        SecureQueue.chain_contents chain2 = (SecureQueue.chain_contents chain).drop length := by
  induction fuel with
  | zero =>
    intro chain length hwf hfuel
    cases chain with
    | nil =>
      exact ⟨[], by simp [SecureQueue.read_loop, SecureQueue.chain_contents], hwf,
        by simp [SecureQueue.chain_contents]⟩
    | cons head rest => simp at hfuel
  | succ fuel ih =>
    intro chain length hwf hfuel
    cases chain with
    | nil =>
      exact ⟨[], by simp [SecureQueue.read_loop, SecureQueue.chain_contents], hwf,
        by simp [SecureQueue.chain_contents]⟩
    | cons head rest =>
      have hstep : SecureQueue.read_loop (fuel + 1) (head :: rest) length =
          if length > 0 then
            match SecureQueue.read_loop fuel
                (if (head.read length).2.size = 0 then rest else (head.read length).2 :: rest)
                (length - (head.read length).1.1) with
            | none => none
            | some r2 =>
              some (((head.read length).1.1 + r2.1.1, (head.read length).1.2 ++ r2.1.2), r2.2)
          else some ((0, []), head :: rest) := rfl
      rw [hstep]
      by_cases hlen : length > 0
      · rw [if_pos hlen]
        have hhead : head.WF := hwf head (List.mem_cons_self _ _)
        have hrest : ∀ node ∈ rest, node.WF := fun node hnode =>
          hwf node (List.mem_cons_of_mem _ hnode)
        obtain ⟨hn, hbytes, hwf2, hcont2, hsize2⟩ := node_read_spec head hhead length
        have hcons : SecureQueue.chain_contents (head :: rest) =
            head.contents ++ SecureQueue.chain_contents rest := rfl
        by_cases hdone : (head.read length).2.size = 0
        · rw [if_pos hdone]
          have hall : head.contents.length ≤ length := by omega
          have hn2 : (head.read length).1.1 = head.contents.length := by
            rw [hn]
            exact Nat.min_eq_right hall
          obtain ⟨chain2, hloop, hcwf, hcc⟩ := ih rest (length - (head.read length).1.1) hrest
            (by simp at hfuel; omega)
          rw [hloop]
          refine ⟨chain2, ?_, hcwf, ?_⟩
          · simp only [hcons, List.length_append, hn2, hbytes, List.take_append_eq_append_take,
              min_add_min_sub _ _ _ hall]
          · rw [hcc, hn2, hcons, List.drop_append_eq_append_drop,
              List.drop_eq_nil_of_le hall, List.nil_append]
        · rw [if_neg hdone]
          have hpart : length < head.contents.length := by omega
          have hn2 : (head.read length).1.1 = length := by
            rw [hn]
            exact Nat.min_eq_left (by omega)
          have hzero : length - (head.read length).1.1 = 0 := by
            rw [hn2]
            omega
          rw [hzero]
          have hloop : SecureQueue.read_loop fuel ((head.read length).2 :: rest) 0 =
              some ((0, []), (head.read length).2 :: rest) := by
            cases fuel <;> rfl
          rw [hloop]
          refine ⟨(head.read length).2 :: rest, ?_, ?_, ?_⟩
          · have h0 : length - head.contents.length = 0 := by omega
            have hmin : min length (head.contents.length +
                (SecureQueue.chain_contents rest).length) = length :=
              Nat.min_eq_left (by omega)
            simp only [hcons, List.length_append, hn2, hbytes, List.take_append_eq_append_take,
              h0, List.take_zero, List.append_nil, Nat.add_zero, hmin]
          · intro node hnode
            rcases List.mem_cons.mp hnode with h | h
            · rw [h]
              exact hwf2
            · exact hrest node h
          · have hcons2 : SecureQueue.chain_contents ((head.read length).2 :: rest) =
                (head.read length).2.contents ++ SecureQueue.chain_contents rest := rfl
            rw [hcons2, hcons, hcont2, List.drop_append_of_le_length (by omega)]
      · rw [if_neg hlen]
        have h0 : length = 0 := by omega
        subst h0
        exact ⟨head :: rest, by simp, hwf, rfl⟩

/-- On a queue within its bounds, `size()` is the number of bytes held. -/
theorem queue_size_spec (q : SecureQueue) (hq : q.WF) : q.size = q.contents.length := by
  have hgen : ∀ (chain : List SecureQueueNode) (count : Nat), (∀ node ∈ chain, node.WF) →
      chain.foldl (fun count current => count + current.size) count =
        count + (SecureQueue.chain_contents chain).length := by
    intro chain
    induction chain with
    | nil => intro count _; rfl
    | cons node rest ih =>
      intro count hwf
      rw [List.foldl_cons, ih _ (fun n hn => hwf n (List.mem_cons_of_mem _ hn))]
      simp only [SecureQueue.chain_contents, List.length_append,
        node_contents_length node (hwf node (List.mem_cons_self _ _))]
      omega
  have := hgen q.m_head 0 hq
  simpa [SecureQueue.size, SecureQueue.contents] using this

/-- `SecureQueue::read` returns, takes the oldest bytes held, and adds the
number of bytes to `m_bytes_read`. -/
theorem queue_read_spec (q : SecureQueue) (hq : q.WF) (length : Nat) :
    ∃ q2, q.read length = some ((min length q.size, q.contents.take length), q2) ∧ q2.WF ∧
      q2.contents = q.contents.drop length ∧
      q2.m_bytes_read = (q.m_bytes_read + min length q.size) % size_t_modulus := by
  obtain ⟨chain2, hloop, hcwf, hcc⟩ := read_loop_spec q.m_head.length q.m_head length hq
    (Nat.le_refl _)
  rw [queue_size_spec q hq]
  unfold SecureQueue.read
  rw [hloop]
  exact ⟨_, rfl, hcwf, hcc, rfl⟩

/-- The first loop of `SecureQueue::peek` passes over whole nodes only. -/
theorem peek_skip_spec (chain : List SecureQueueNode) :
    ∀ (offset : Nat), (∀ node ∈ chain, node.WF) →
      (SecureQueue.peek_skip chain offset).1 ++ (SecureQueue.peek_skip chain offset).2.1 =
          chain ∧
        (SecureQueue.chain_contents (SecureQueue.peek_skip chain offset).2.1).drop
            (SecureQueue.peek_skip chain offset).2.2 =
          (SecureQueue.chain_contents chain).drop offset ∧
        (∀ head rest, (SecureQueue.peek_skip chain offset).2.1 = head :: rest →
          (SecureQueue.peek_skip chain offset).2.2 ≤ head.contents.length) := by
  induction chain with
  | nil =>
    intro offset _
    simp [SecureQueue.peek_skip, SecureQueue.chain_contents]
  | cons current rest ih =>
    intro offset hwf
    have hcur : current.WF := hwf current (List.mem_cons_self _ _)
    have hsize := node_contents_length current hcur
    have hcons : SecureQueue.chain_contents (current :: rest) =
        current.contents ++ SecureQueue.chain_contents rest := rfl
    by_cases hpos : offset > 0
    · by_cases hskip : offset ≥ current.size
      · have hstep : SecureQueue.peek_skip (current :: rest) offset =
            (current :: (SecureQueue.peek_skip rest (offset - current.size)).1,
              (SecureQueue.peek_skip rest (offset - current.size)).2.1,
              (SecureQueue.peek_skip rest (offset - current.size)).2.2) := by
          simp only [SecureQueue.peek_skip, if_pos hpos, if_pos hskip]
        obtain ⟨h1, h2, h3⟩ := ih (offset - current.size)
          (fun n hn => hwf n (List.mem_cons_of_mem _ hn))
        have hnil : current.contents.drop offset = [] :=
          List.drop_eq_nil_of_le (by omega)
        rw [hstep]
        refine ⟨by simp [h1], ?_, h3⟩
        show List.drop (SecureQueue.peek_skip rest (offset - current.size)).2.2
          (SecureQueue.chain_contents (SecureQueue.peek_skip rest (offset - current.size)).2.1) =
          _
        rw [h2, hcons, List.drop_append_eq_append_drop, hnil, List.nil_append, hsize]
      · have hstep : SecureQueue.peek_skip (current :: rest) offset =
            ([], current :: rest, offset) := by
          simp only [SecureQueue.peek_skip, if_pos hpos, if_neg hskip]
        rw [hstep]
        refine ⟨rfl, rfl, ?_⟩
        intro head rest2 heq
        have heq2 : current :: rest = head :: rest2 := heq
        cases heq2
        show offset ≤ _
        omega
    · have hstep : SecureQueue.peek_skip (current :: rest) offset =
          ([], current :: rest, offset) := by
        simp only [SecureQueue.peek_skip, if_neg hpos]
      rw [hstep]
      refine ⟨rfl, rfl, ?_⟩
      intro head rest2 heq
      show offset ≤ _
      omega

/-- The second loop of `SecureQueue::peek` copies bytes from the offset on and
leaves the chain unchanged. -/
theorem peek_loop_spec (chain : List SecureQueueNode) :
    ∀ (length offset : Nat), (∀ node ∈ chain, node.WF) →
      (∀ head rest, chain = head :: rest → offset ≤ head.contents.length) →
      (SecureQueue.peek_loop chain length offset).2 = chain ∧
        (SecureQueue.peek_loop chain length offset).1.2 =
          ((SecureQueue.chain_contents chain).drop offset).take length ∧
        (SecureQueue.peek_loop chain length offset).1.1 =
          min length ((SecureQueue.chain_contents chain).length - offset) := by
  induction chain with
  | nil =>
    intro length offset _ _
    simp [SecureQueue.peek_loop, SecureQueue.chain_contents]
  | cons current rest ih =>
    intro length offset hwf hoff
    have hcur : current.WF := hwf current (List.mem_cons_self _ _)
    have hoff2 := hoff current rest rfl
    by_cases hlen : length > 0
    · have hstep : SecureQueue.peek_loop (current :: rest) length offset =
          (((current.peek length offset).1.1 +
              (SecureQueue.peek_loop rest (length - (current.peek length offset).1.1) 0).1.1,
            (current.peek length offset).1.2 ++
              (SecureQueue.peek_loop rest (length - (current.peek length offset).1.1) 0).1.2),
            (current.peek length offset).2 ::
              (SecureQueue.peek_loop rest (length - (current.peek length offset).1.1) 0).2) := by
        simp only [SecureQueue.peek_loop, if_pos hlen]
      obtain ⟨hn, hbytes, hsame⟩ := node_peek_spec current hcur length offset
      obtain ⟨h1, h2, h3⟩ := ih (length - (current.peek length offset).1.1) 0
        (fun n hn => hwf n (List.mem_cons_of_mem _ hn)) (fun _ _ _ => Nat.zero_le _)
      rw [hstep]
      refine ⟨by rw [hsame, h1], ?_, ?_⟩
      · have hcons : SecureQueue.chain_contents (current :: rest) =
            current.contents ++ SecureQueue.chain_contents rest := rfl
        have harith : length - min length (current.contents.length - offset) =
            length - (current.contents.length - offset) := by
          simp only [Nat.min_def]
          split_ifs <;> omega
        show (current.peek length offset).1.2 ++
          (SecureQueue.peek_loop rest (length - (current.peek length offset).1.1) 0).1.2 = _
        rw [h2, hbytes, hn, hcons, List.drop_zero, List.drop_append_of_le_length hoff2,
          List.take_append_eq_append_take, List.length_drop, harith]
      · have hcons : SecureQueue.chain_contents (current :: rest) =
            current.contents ++ SecureQueue.chain_contents rest := rfl
        show (current.peek length offset).1.1 +
          (SecureQueue.peek_loop rest (length - (current.peek length offset).1.1) 0).1.1 = _
        rw [h3, hn, hcons, List.length_append, min_sub_add_min _ _ _ _ hoff2]
    · have hstep : SecureQueue.peek_loop (current :: rest) length offset =
          ((0, []), current :: rest) := by
        simp only [SecureQueue.peek_loop, if_neg hlen]
      have h0 : length = 0 := by omega
      rw [hstep, h0]
      simp

/-- `SecureQueue::peek` copies the bytes held from the offset on and leaves the
queue unchanged. -/
theorem queue_peek_spec (q : SecureQueue) (hq : q.WF) (length offset : Nat) :
    (q.peek length offset).1 =
        (min length (q.size - offset), (q.contents.drop offset).take length) ∧
      (q.peek length offset).2 = q := by
  obtain ⟨h1, h2, h3⟩ := peek_skip_spec q.m_head offset hq
  have hwf2 : ∀ node ∈ (SecureQueue.peek_skip q.m_head offset).2.1, node.WF := by
    intro node hnode
    apply hq
    rw [← h1]
    exact List.mem_append_right _ hnode
  obtain ⟨h4, h5, h6⟩ := peek_loop_spec (SecureQueue.peek_skip q.m_head offset).2.1 length
    (SecureQueue.peek_skip q.m_head offset).2.2 hwf2 h3
  have hlen : (SecureQueue.chain_contents (SecureQueue.peek_skip q.m_head offset).2.1).length -
      (SecureQueue.peek_skip q.m_head offset).2.2 =
      (SecureQueue.chain_contents q.m_head).length - offset := by
    have := congrArg List.length h2
    simpa [List.length_drop] using this
  constructor
  · rw [queue_size_spec q hq]
    unfold SecureQueue.peek
    simp only [SecureQueue.contents]
    rw [Prod.ext_iff]
    exact ⟨by rw [h6, hlen], by rw [h5, h2]⟩
  · unfold SecureQueue.peek
    simp only [h4, h1]

theorem read_bytes_append (a b : List (Nat × List Nat)) :
    read_bytes (a ++ b) = read_bytes a ++ read_bytes b := by
  induction a with
  | nil => rfl
  | cons r rest ih => simp [read_bytes, ih]

theorem read_total_append (a b : List (Nat × List Nat)) :
    read_total (a ++ b) = read_total a + read_total b := by
  induction a with
  | nil => simp [read_total]
  | cons r rest ih => simp [read_total, ih, Nat.add_assoc]

/-- When every recorded `read` returned the number of bytes it copied, the sum
of the values returned is the number of bytes copied out. -/
theorem read_total_eq_length (rs : List (Nat × List Nat)) (h : ∀ r ∈ rs, r.1 = r.2.length) :
    read_total rs = (read_bytes rs).length := by
  induction rs with
  | nil => rfl
  | cons r rest ih =>
    simp only [read_total, read_bytes, List.length_append,
      h r (List.mem_cons_self _ _), ih (fun r2 hr2 => h r2 (List.mem_cons_of_mem _ hr2))]

theorem queue_new_wf (cap : Nat) : (SecureQueue.new cap).WF := by
  intro node hnode
  rw [List.mem_singleton.mp hnode]
  exact node_new_wf cap

theorem queue_new_contents (cap : Nat) : (SecureQueue.new cap).contents = [] := by
  simp [SecureQueue.new, SecureQueue.contents, SecureQueue.chain_contents, node_new_contents]

/-- Every call returns and keeps the invariants; the bytes copied out so far
followed by the bytes held are the bytes held at the start followed by the
bytes written. -/
theorem run_queue_spec (cap : Nat) (hcap : 0 < cap) (ops : List QOp) :
    ∀ st : QState, QInv st →
      ∃ st2, run_queue cap st ops = some st2 ∧ QInv st2 ∧
        read_bytes st2.1 ++ st2.2.contents =
          read_bytes st.1 ++ st.2.contents ++ written ops := by
  induction ops with
  | nil =>
    intro st hst
    exact ⟨st, rfl, hst, by simp [written]⟩
  | cons op rest ih =>
    intro st hst
    obtain ⟨hwf, hrs, hcount⟩ := hst
    cases op with
    | write input =>
      obtain ⟨q2, hq2, hwf2, hcont2, hbr2⟩ := queue_write_spec cap hcap st.2 hwf input
      have hstep : run_queue cap st (QOp.write input :: rest) =
          run_queue cap (st.1, q2) rest := by
        simp only [run_queue, QOp.apply, hq2]
      obtain ⟨st3, hrun, hinv, hbytes⟩ := ih (st.1, q2) ⟨hwf2, hrs, by rw [hbr2]; exact hcount⟩
      refine ⟨st3, by rw [hstep, hrun], hinv, ?_⟩
      rw [hbytes]
      simp only [hcont2, written, List.append_assoc]
    | read length =>
      obtain ⟨q2, hq2, hwf2, hcont2, hbr2⟩ := queue_read_spec st.2 hwf length
      have hstep : run_queue cap st (QOp.read length :: rest) =
          run_queue cap
            (st.1 ++ [(min length st.2.size, st.2.contents.take length)], q2) rest := by
        simp only [run_queue, QOp.apply, hq2]
      have hlen : min length st.2.size = (st.2.contents.take length).length := by
        rw [queue_size_spec st.2 hwf, List.length_take]
      obtain ⟨st3, hrun, hinv, hbytes⟩ := ih
        (st.1 ++ [(min length st.2.size, st.2.contents.take length)], q2)
        ⟨hwf2, by
          intro r hr
          rcases List.mem_append.mp hr with h | h
          · exact hrs r h
          · rw [List.mem_singleton.mp h]
            exact hlen, by
          show q2.m_bytes_read = _
          rw [hbr2, read_total_append, hcount]
          simp [read_total, Nat.add_mod]⟩
      refine ⟨st3, by rw [hstep, hrun], hinv, ?_⟩
      rw [hbytes]
      simp only [read_bytes_append, read_bytes, hcont2, written, List.append_nil,
        List.append_assoc, List.take_append_drop]
    | peek length offset =>
      have hpeek := (queue_peek_spec st.2 hwf length offset).2
      have hstep : run_queue cap st (QOp.peek length offset :: rest) =
          run_queue cap st rest := by
        simp only [run_queue, QOp.apply, hpeek]
      obtain ⟨st3, hrun, hinv, hbytes⟩ := ih st ⟨hwf, hrs, hcount⟩
      exact ⟨st3, by rw [hstep, hrun], hinv, by rw [hbytes]; simp [written]⟩

/-- A run on a new queue returns; the bytes copied out followed by the bytes
held are the bytes written. -/
theorem run_queue_new (cap : Nat) (hcap : 0 < cap) (ops : List QOp) :
    ∃ st, run_queue cap ([], SecureQueue.new cap) ops = some st ∧ QInv st ∧
      read_bytes st.1 ++ st.2.contents = written ops := by
  obtain ⟨st, hrun, hinv, hbytes⟩ := run_queue_spec cap hcap ops ([], SecureQueue.new cap)
    ⟨queue_new_wf cap, fun r hr => (by cases hr), rfl⟩
  refine ⟨st, hrun, hinv, ?_⟩
  rw [hbytes, queue_new_contents]
  simp [read_bytes]

/-! ## Claims on `SecureQueue` -/

/-- C15: `SecureQueue` is first-in first-out over bytes. After every sequence
of calls on a new queue (for every positive node buffer size, so however the
bytes are split across nodes), the bytes copied out by the `read` calls
followed by the bytes still held are the bytes written, in order, so the bytes
read are a prefix of the bytes written; and a further `read(output, length)`
returns `min(length, size())` and copies exactly the oldest bytes held. -/
theorem C15_secure_queue_fifo (cap : Nat) (hcap : 0 < cap) (ops : List QOp) (length : Nat) :
    ∃ st, run_queue cap ([], SecureQueue.new cap) ops = some st ∧
      read_bytes st.1 ++ st.2.contents = written ops ∧
      read_bytes st.1 <+: written ops ∧
      ∃ q2, st.2.read length =
          some ((min length st.2.size, st.2.contents.take length), q2) ∧
        q2.contents = st.2.contents.drop length := by
  obtain ⟨st, hrun, hinv, hbytes⟩ := run_queue_new cap hcap ops
  obtain ⟨q2, hread, _, hcont, _⟩ := queue_read_spec st.2 hinv.1 length
  exact ⟨st, hrun, hbytes, ⟨st.2.contents, hbytes⟩, q2, hread, hcont⟩

/-- Witness for C15: a node buffer of 2 bytes, five bytes written, one read,
one more byte written, three read, then a `read` of length 4. -/
theorem C15_secure_queue_fifo_witness :
    ∃ st, run_queue 2 ([], SecureQueue.new 2)
        [QOp.write [1, 2, 3, 4, 5], QOp.read 1, QOp.write [6], QOp.read 3] = some st ∧
      read_bytes st.1 ++ st.2.contents =
        written [QOp.write [1, 2, 3, 4, 5], QOp.read 1, QOp.write [6], QOp.read 3] ∧
      read_bytes st.1 <+:
        written [QOp.write [1, 2, 3, 4, 5], QOp.read 1, QOp.write [6], QOp.read 3] ∧
      ∃ q2, st.2.read 4 = some ((min 4 st.2.size, st.2.contents.take 4), q2) ∧
        q2.contents = st.2.contents.drop 4 :=
  C15_secure_queue_fifo 2 (by decide)
    [QOp.write [1, 2, 3, 4, 5], QOp.read 1, QOp.write [6], QOp.read 3] 4

/-- C16: `peek` reads without removing. After every sequence of calls on a new
queue, `peek(output, length, offset)` returns `min(length, size() - offset)`
(0 when `offset >= size()`) and copies the bytes held at the positions from
`offset` on, which are the bytes that `read(length)` delivers after a
`read(offset)`; the queue after `peek` is the queue before, so `size()`,
`get_bytes_read()` and every later `read` are unchanged. -/
theorem C16_peek_reads_without_removing (cap : Nat) (hcap : 0 < cap) (ops : List QOp)
    (length offset : Nat) :
    ∃ st, run_queue cap ([], SecureQueue.new cap) ops = some st ∧
      (st.2.peek length offset).1 =
        (min length (st.2.size - offset), (st.2.contents.drop offset).take length) ∧
      (offset ≥ st.2.size → (st.2.peek length offset).1.1 = 0) ∧
      (∃ r q1 q2, st.2.read offset = some (r, q1) ∧
        q1.read length = some ((st.2.peek length offset).1, q2)) ∧
      (st.2.peek length offset).2 = st.2 ∧
      (st.2.peek length offset).2.size = st.2.size ∧
      (st.2.peek length offset).2.get_bytes_read = st.2.get_bytes_read ∧
      ∀ n, (st.2.peek length offset).2.read n = st.2.read n := by
  obtain ⟨st, hrun, hinv, _⟩ := run_queue_new cap hcap ops
  obtain ⟨hpeek, hsame⟩ := queue_peek_spec st.2 hinv.1 length offset
  obtain ⟨q1, hread1, hwf1, hcont1, _⟩ := queue_read_spec st.2 hinv.1 offset
  obtain ⟨q2, hread2, _, _, _⟩ := queue_read_spec q1 hwf1 length
  have hsize1 : q1.size = st.2.size - offset := by
    rw [queue_size_spec q1 hwf1, hcont1, List.length_drop, queue_size_spec st.2 hinv.1]
  refine ⟨st, hrun, hpeek, ?_, ⟨_, q1, q2, hread1, ?_⟩, hsame, ?_, ?_, ?_⟩
  · intro hoff
    rw [hpeek]
    show min length (st.2.size - offset) = 0
    have h0 : st.2.size - offset = 0 := by omega
    rw [h0]
    exact Nat.min_eq_right (Nat.zero_le _)
  · rw [hread2, hsize1, hcont1, hpeek]
  · rw [hsame]
  · rw [hsame]
  · intro n
    rw [hsame]

/-- Witness for C16: a node buffer of 2 bytes, five bytes written and one read,
then a `peek` of 2 bytes at offset 3. -/
theorem C16_peek_reads_without_removing_witness :
    ∃ st, run_queue 2 ([], SecureQueue.new 2) [QOp.write [1, 2, 3, 4, 5], QOp.read 1] =
        some st ∧
      (st.2.peek 2 3).1 = (min 2 (st.2.size - 3), (st.2.contents.drop 3).take 2) ∧
      (3 ≥ st.2.size → (st.2.peek 2 3).1.1 = 0) ∧
      (∃ r q1 q2, st.2.read 3 = some (r, q1) ∧ q1.read 2 = some ((st.2.peek 2 3).1, q2)) ∧
      (st.2.peek 2 3).2 = st.2 ∧
      (st.2.peek 2 3).2.size = st.2.size ∧
      (st.2.peek 2 3).2.get_bytes_read = st.2.get_bytes_read ∧
      ∀ n, (st.2.peek 2 3).2.read n = st.2.read n :=
  C16_peek_reads_without_removing 2 (by decide) [QOp.write [1, 2, 3, 4, 5], QOp.read 1] 2 3

/-- C17: `size()` is the number of bytes held. After every sequence of calls on
a new queue, `size()` is the number of bytes written minus the sum of the
values returned by `read`, and `end_of_data()` and `empty()` are true exactly
when that number is 0. -/
theorem C17_size_counts_bytes_held (cap : Nat) (hcap : 0 < cap) (ops : List QOp) :
    ∃ st, run_queue cap ([], SecureQueue.new cap) ops = some st ∧
      st.2.size = (written ops).length - read_total st.1 ∧
      read_total st.1 ≤ (written ops).length ∧
      (st.2.end_of_data = true ↔ (written ops).length - read_total st.1 = 0) ∧
      (st.2.empty = true ↔ (written ops).length - read_total st.1 = 0) := by
  obtain ⟨st, hrun, hinv, hbytes⟩ := run_queue_new cap hcap ops
  have htotal := read_total_eq_length st.1 hinv.2.1
  have hlen := congrArg List.length hbytes
  rw [List.length_append] at hlen
  have hsize : st.2.size = (written ops).length - read_total st.1 := by
    rw [queue_size_spec st.2 hinv.1, htotal]
    omega
  refine ⟨st, hrun, hsize, by omega, ?_, ?_⟩
  · simp only [SecureQueue.end_of_data, decide_eq_true_eq, hsize]
  · simp only [SecureQueue.empty, decide_eq_true_eq, hsize]

/-- Witness for C17: a node buffer of 2 bytes, five bytes written, a read of 1
and a read of 9. -/
theorem C17_size_counts_bytes_held_witness :
    ∃ st, run_queue 2 ([], SecureQueue.new 2)
        [QOp.write [1, 2, 3, 4, 5], QOp.read 1, QOp.read 9] = some st ∧
      st.2.size =
        (written [QOp.write [1, 2, 3, 4, 5], QOp.read 1, QOp.read 9]).length -
          read_total st.1 ∧
      read_total st.1 ≤ (written [QOp.write [1, 2, 3, 4, 5], QOp.read 1, QOp.read 9]).length ∧
      (st.2.end_of_data = true ↔
        (written [QOp.write [1, 2, 3, 4, 5], QOp.read 1, QOp.read 9]).length -
          read_total st.1 = 0) ∧
      (st.2.empty = true ↔
        (written [QOp.write [1, 2, 3, 4, 5], QOp.read 1, QOp.read 9]).length -
          read_total st.1 = 0) :=
  C17_size_counts_bytes_held 2 (by decide) [QOp.write [1, 2, 3, 4, 5], QOp.read 1, QOp.read 9]

/-- C18: `get_bytes_read()` is the number of bytes read so far. On a new queue
it is 0; after every sequence of calls it is the sum of the values returned by
the `read` calls, as a `size_t` (modulo `2^64`, so the sum itself while that
is below `2^64`); a `write` and a `peek` leave it unchanged and a `read` adds
the value it returns. -/
theorem C18_get_bytes_read (cap : Nat) (hcap : 0 < cap) (ops : List QOp) (input : List Nat)
    (length offset : Nat) :
    (SecureQueue.new cap).get_bytes_read = 0 ∧
    ∃ st, run_queue cap ([], SecureQueue.new cap) ops = some st ∧
      st.2.get_bytes_read = read_total st.1 % size_t_modulus ∧
      (read_total st.1 < size_t_modulus → st.2.get_bytes_read = read_total st.1) ∧
      (∃ q2, st.2.write cap input = some q2 ∧ q2.get_bytes_read = st.2.get_bytes_read) ∧
      (st.2.peek length offset).2.get_bytes_read = st.2.get_bytes_read ∧
      ∃ r q2, st.2.read length = some (r, q2) ∧
        q2.get_bytes_read = (st.2.get_bytes_read + r.1) % size_t_modulus ∧
        (st.2.get_bytes_read + r.1 < size_t_modulus →
          q2.get_bytes_read = st.2.get_bytes_read + r.1) := by
  refine ⟨rfl, ?_⟩
  obtain ⟨st, hrun, hinv, _⟩ := run_queue_new cap hcap ops
  obtain ⟨qw, hwrite, _, _, hbw⟩ := queue_write_spec cap hcap st.2 hinv.1 input
  obtain ⟨qr, hread, _, _, hbr⟩ := queue_read_spec st.2 hinv.1 length
  refine ⟨st, hrun, hinv.2.2, ?_, ⟨qw, hwrite, hbw⟩, ?_, ⟨_, qr, hread, hbr, ?_⟩⟩
  · intro hlt
    show st.2.m_bytes_read = _
    rw [hinv.2.2, Nat.mod_eq_of_lt hlt]
  · rw [(queue_peek_spec st.2 hinv.1 length offset).2]
  · intro hlt
    show qr.m_bytes_read = _
    rw [hbr]
    exact Nat.mod_eq_of_lt hlt

/-- Witness for C18: a node buffer of 2 bytes, five bytes written and reads of
1 and 3 bytes. -/
theorem C18_get_bytes_read_witness :
    (SecureQueue.new 2).get_bytes_read = 0 ∧
    ∃ st, run_queue 2 ([], SecureQueue.new 2)
        [QOp.write [1, 2, 3, 4, 5], QOp.read 1, QOp.read 3] = some st ∧
      st.2.get_bytes_read = read_total st.1 % size_t_modulus ∧
      (read_total st.1 < size_t_modulus → st.2.get_bytes_read = read_total st.1) ∧
      (∃ q2, st.2.write 2 [6] = some q2 ∧ q2.get_bytes_read = st.2.get_bytes_read) ∧
      (st.2.peek 1 0).2.get_bytes_read = st.2.get_bytes_read ∧
      ∃ r q2, st.2.read 1 = some (r, q2) ∧
        q2.get_bytes_read = (st.2.get_bytes_read + r.1) % size_t_modulus ∧
        (st.2.get_bytes_read + r.1 < size_t_modulus →
          q2.get_bytes_read = st.2.get_bytes_read + r.1) :=
  C18_get_bytes_read 2 (by decide) [QOp.write [1, 2, 3, 4, 5], QOp.read 1, QOp.read 3] [6] 1 0

/-! ## Writes to one name and reads of another -/

theorem kv_get_kv_del_other (db : Backend) (key key2 : StdString) (h : key ≠ key2) :
    kv_get (kv_del db key) key2 = kv_get db key2 := by
  induction db with
  | nil => simp [kv_del, kv_get]
  | cons r rest ih =>
    obtain ⟨k, v⟩ := r
    by_cases hk : k = key
    · have hk2 : k ≠ key2 := fun h2 => h (hk.symm.trans h2)
      have hk3 : key ≠ key2 := h
      subst hk
      simpa [kv_del, kv_get, hk3] using ih
    · by_cases hk2 : k = key2
      · subst hk2
        simp [kv_del, hk, kv_get]
      · simpa [kv_del, hk, kv_get, hk2] using ih

/-- The outcome of `get` depends on the backend only through the record under
the backend key of the name. -/
theorem get_congr (P : Primitives) (self : Encrypted_PSK_Database) (db db2 : Backend)
    (name : StdString)
    (h : kv_get db2 (self.backend_key P name) = kv_get db (self.backend_key P name)) :
    self.get P db2 name = self.get P db name := by
  unfold Encrypted_PSK_Database.backend_key at h
  simp only [Encrypted_PSK_Database.get, h]

/-- C21: writes to one name do not disturb another. For names `n ≠ m` the
backend keys of `n` and `m` differ (key unwrap inverts key wrap and base64
decode inverts base64 encode, so both are injective); `set(n, v)` and
`remove(n)` leave the record under every backend key other than that of `n` as
it was; and the outcome of `get(m)`, value or error, is the same before and
after `set(n, v)` and before and after `remove(n)`. -/
theorem C21_other_names_undisturbed (P : Primitives) (hkw : UnwrapInvertsWrap P)
    (hb64 : DecodeInvertsEncode P) (self : Encrypted_PSK_Database) (db : Backend)
    (n m : StdString) (v : Bytes) (hnm : n ≠ m) :
    self.backend_key P n ≠ self.backend_key P m ∧
      (∀ k, k ≠ self.backend_key P n → kv_get (self.set P db n v) k = kv_get db k) ∧
      (∀ k, k ≠ self.backend_key P n → kv_get (self.remove P db n) k = kv_get db k) ∧
      self.get P (self.set P db n v) m = self.get P db m ∧
      self.get P (self.remove P db n) m = self.get P db m := by
  have hkeys : self.backend_key P n ≠ self.backend_key P m := fun h =>
    hnm (backend_key_injective P hkw hb64 self n m h)
  have hset : ∀ k, k ≠ self.backend_key P n → kv_get (self.set P db n v) k = kv_get db k :=
    fun k hk => kv_get_kv_set_other db (self.backend_key P n) _ k (fun h => hk h.symm)
  have hrem : ∀ k, k ≠ self.backend_key P n → kv_get (self.remove P db n) k = kv_get db k :=
    fun k hk => kv_get_kv_del_other db (self.backend_key P n) k (fun h => hk h.symm)
  exact ⟨hkeys, hset, hrem,
    get_congr P self db _ m (hset _ (fun h => hkeys h.symm)),
    get_congr P self db _ m (hrem _ (fun h => hkeys h.symm))⟩

/-- Witness for C21: with the toy primitives and the records of "a" and "b" in
the backend, `get("b")` is the same before and after `set("a", [9])` and
before and after `remove("a")`. -/
theorem C21_other_names_undisturbed_witness :
    (Encrypted_PSK_Database.new toy [7]).get toy
        ((Encrypted_PSK_Database.new toy [7]).set toy
          ((Encrypted_PSK_Database.new toy [7]).set toy
            ((Encrypted_PSK_Database.new toy [7]).set toy [] (str "a") [1]) (str "b") [2])
          (str "a") [9]) (str "b") =
        (Encrypted_PSK_Database.new toy [7]).get toy
          ((Encrypted_PSK_Database.new toy [7]).set toy
            ((Encrypted_PSK_Database.new toy [7]).set toy [] (str "a") [1]) (str "b") [2])
          (str "b") ∧
      (Encrypted_PSK_Database.new toy [7]).get toy
        ((Encrypted_PSK_Database.new toy [7]).remove toy
          ((Encrypted_PSK_Database.new toy [7]).set toy
            ((Encrypted_PSK_Database.new toy [7]).set toy [] (str "a") [1]) (str "b") [2])
          (str "a")) (str "b") =
        (Encrypted_PSK_Database.new toy [7]).get toy
          ((Encrypted_PSK_Database.new toy [7]).set toy
            ((Encrypted_PSK_Database.new toy [7]).set toy [] (str "a") [1]) (str "b") [2])
          (str "b") :=
  (C21_other_names_undisturbed toy toy_unwrapInvertsWrap toy_decodeInvertsEncode
    (Encrypted_PSK_Database.new toy [7])
    ((Encrypted_PSK_Database.new toy [7]).set toy
      ((Encrypted_PSK_Database.new toy [7]).set toy [] (str "a") [1]) (str "b") [2])
    (str "a") (str "b") [9] (by decide)).2.2.2

end Botan
